import Mathlib

/-!
Verification of the `vector-logic` rule engine core against its
natural-language specification.

The repository's core is a symbolic algebra of ternary cubes (`TObject`),
state vectors (disjunctions of cubes), pivot-set similarity helpers, a rule
converter and a compiler scheduler.  Variable indices are integers: user
variables get positive 1-based indices, auxiliary variables get negative
indices.  We embed the Python classes as Lean structures and functions:

* `t_object.py`         → `TObject` and its operations (translated line by line);
* `helpers.py`          → `calcUnions` / `calcIntersections` /
                          `update_ps_unions_intersections` / `find_next_cluster`
                          (NumPy float arithmetic is embedded as exact `ℚ`
                          arithmetic; integer matrices as `List (List ℕ)`);
* `rule_converter.py`   → `Ast`, `replaceDups`, `visitOp`, `create_triplet_sv`;
* `state_vector.py` and the scheduler inside `engine.py` are not part of the
  sources; the definitions that stand in for them are marked
  `Modelled from the spec:` and follow the specification text.
-/

/-- A ternary cube: indices fixed to 1, indices fixed to 0, and a null flag
marking a local contradiction (`t_object.py`, class `TObject`). -/
structure TObject where
  ones : Finset ℤ
  zeros : Finset ℤ
  is_null : Bool
deriving DecidableEq

/-- The canonicalizing constructor `TObject(ones=o, zeros=z)`: overlapping
sets collapse to the null cube with empty sets (`__init__`). -/
def mkT (o z : Finset ℤ) : TObject :=
  if o ∩ z = ∅ then ⟨o, z, false⟩ else ⟨∅, ∅, true⟩

/-- The null cube `TObject(is_null=True)`. -/
def TObject.nullT : TObject := ⟨∅, ∅, true⟩

/-- The trivial (always-true) cube `TObject()`. -/
def TObject.trivT : TObject := ⟨∅, ∅, false⟩

/-- `is_trivial`: not null and both index sets empty. -/
def TObject.is_trivial (t : TObject) : Bool :=
  !t.is_null && decide (t.ones = ∅) && decide (t.zeros = ∅)

/-- `pivot_set`: the fixed positions; empty for a null cube. -/
def TObject.pivot_set (t : TObject) : Finset ℤ :=
  if t.is_null then ∅ else t.ones ∪ t.zeros

/-- `var_value(index)`: 1 / 0 / "don't care" (−1). -/
def TObject.var_value (t : TObject) (i : ℤ) : ℤ :=
  if i ∈ t.ones then 1 else if i ∈ t.zeros then 0 else -1

/-- Cube product `__mul__`: null absorbs, otherwise the union of the fixings
fed through the canonicalizing constructor. -/
def TObject.mul (a b : TObject) : TObject :=
  if a.is_null || b.is_null then TObject.nullT
  else mkT (a.ones ∪ b.ones) (a.zeros ∪ b.zeros)

/-- `negate_variables`: swap the listed indices between `ones` and `zeros`
(the Python method accepts a list and forms a set of it). -/
def TObject.negate_variables (t : TObject) (idxs : List ℤ) : TObject :=
  if t.is_null then TObject.nullT
  else
    let s := idxs.toFinset
    mkT ((t.ones \ s) ∪ (t.zeros ∩ s)) ((t.zeros \ s) ∪ (t.ones ∩ s))

/-- `remove_variables`: drop the listed indices from both sets. -/
def TObject.remove_variables (t : TObject) (idxs : List ℤ) : TObject :=
  if t.is_null then TObject.nullT
  else
    let s := idxs.toFinset
    mkT (t.ones \ s) (t.zeros \ s)

/-- `reduce`: the size pre-check (the `ones` cardinalities must differ by ±1
and the `zeros` cardinalities by the opposite sign), then the two symmetric
differences must coincide and be a single index; the result keeps the smaller
`ones` set and the smaller `zeros` set.  The Python code binds the unique
element `idx` of the symmetric difference and tests `idx in self.ones`; with
a singleton difference that test is the nonemptiness of the intersection. -/
def TObject.reduce (a b : TObject) : Option TObject :=
  let od : ℤ := (a.ones.card : ℤ) - b.ones.card
  let zd : ℤ := (a.zeros.card : ℤ) - b.zeros.card
  if (od = 1 ∧ zd = -1) ∨ (od = -1 ∧ zd = 1) then
    let onesDiff := (a.ones \ b.ones) ∪ (b.ones \ a.ones)
    if onesDiff.card = 1 then
      let zerosDiff := (a.zeros \ b.zeros) ∪ (b.zeros \ a.zeros)
      if onesDiff = zerosDiff then
        if onesDiff ∩ a.ones ≠ ∅ then some (mkT b.ones a.zeros)
        else some (mkT a.ones b.zeros)
      else none
    else none
  else none

/-- `is_superset`: 1 when `a` is more general than (or equal to) `b`, −1 for
the reverse, 0 otherwise. -/
def TObject.is_superset (a b : TObject) : ℤ :=
  if a.ones ⊆ b.ones ∧ a.zeros ⊆ b.zeros then 1
  else if b.ones ⊆ a.ones ∧ b.zeros ⊆ a.zeros then -1
  else 0

/-- Python `__eq__`: nulls compare equal among themselves; non-nulls compare
by their two index sets. -/
def TObject.pyEq (a b : TObject) : Bool :=
  if a.is_null then b.is_null
  else !b.is_null && decide (a.ones = b.ones) && decide (a.zeros = b.zeros)

/-- Python `__hash__` hashes the tuple `(is_null, ones, zeros)`; we embed the
hash as that tuple itself (equal tuples, equal hashes). -/
def TObject.pyHash (t : TObject) : Bool × Finset ℤ × Finset ℤ :=
  (t.is_null, t.ones, t.zeros)

/-- The representation invariant of `TObject`: `ones` and `zeros` are
disjoint, and a null cube carries empty sets. -/
def TObject.inv (t : TObject) : Prop :=
  t.ones ∩ t.zeros = ∅ ∧ (t.is_null = true → t.ones = ∅ ∧ t.zeros = ∅)

instance (t : TObject) : Decidable t.inv := by
  unfold TObject.inv; infer_instance

def TObject.adjacentAt (a b : TObject) (i : ℤ) : Prop :=
  ((i ∈ a.ones ∧ i ∈ b.zeros) ∨ (i ∈ a.zeros ∧ i ∈ b.ones)) ∧
  a.ones.erase i = b.ones.erase i ∧ a.zeros.erase i = b.zeros.erase i

instance (a b : TObject) (i : ℤ) : Decidable (TObject.adjacentAt a b i) := by
  unfold TObject.adjacentAt
  infer_instance

/-- Modelled from the spec: `state_vector.py` is not among the sources.  A
state vector is the ordered sequence of its cubes; it is a contradiction
exactly when it contains no non-null cubes. -/
def svIsContradiction (A : List TObject) : Bool := A.all (·.is_null)

/-- Modelled from the spec: a state vector is trivial when it contains a
trivial cube. -/
def svIsTrivial (A : List TObject) : Bool := A.any (·.is_trivial)

/-- Modelled from the spec: `StateVector.var_value(i)` errors on a
contradiction; a present trivial cube means unknown (−1); otherwise it
collects the cube values of the non-trivial cubes and returns 1 when they
are all 1, 0 when they are all 0, and −1 otherwise.  The error is embedded
as `none`. -/
def svVarValue (A : List TObject) (i : ℤ) : Option ℤ :=
  if svIsContradiction A then none
  else if svIsTrivial A then some (-1)
  else
    let vals := (A.filter (fun t => !t.is_trivial)).map (fun t => t.var_value i)
    if vals.all (· = 1) then some 1
    else if vals.all (· = 0) then some 0
    else some (-1)

/-- Matrix entry lookup: matrices are lists of rows (`np.ndarray` of shape n×n). -/
def matGet (m : List (List ℕ)) (i j : ℕ) : ℕ := (m.getD i []).getD j 0

/-- `calc_ps_unions_intersections`, intersection part: the product of the
boolean incidence matrix with its transpose counts, for each pair of pivot
sets, the variables present in both. -/
def calcIntersections (ps : List (Finset ℤ)) : List (List ℕ) :=
  ps.map (fun a => ps.map (fun b => (a ∩ b).card))

/-- `calc_ps_unions_intersections`, union part, by inclusion–exclusion as in
the source. -/
def calcUnions (ps : List (Finset ℤ)) : List (List ℕ) :=
  ps.map (fun a => ps.map (fun b => a.card + b.card - (a ∩ b).card))

/-- `calc_ps_unions_intersections` returns `(union_sizes, intersection_sizes)`. -/
def calc_ps_unions_intersections (ps : List (Finset ℤ)) :
    List (List ℕ) × List (List ℕ) :=
  (calcUnions ps, calcIntersections ps)

/-- `np.delete` of row `i` and column `i`. -/
def deleteRowCol (m : List (List ℕ)) (i : ℕ) : List (List ℕ) :=
  (m.eraseIdx i).map (fun row => row.eraseIdx i)

/-- Single entry assignment `m[i, j] = v`. -/
def setEntry (m : List (List ℕ)) (i j v : ℕ) : List (List ℕ) :=
  m.set i ((m.getD i []).set j v)

/-- An n×n zero matrix whose upper-left (n−1)×(n−1) block is copied from
`old` (`new[:-1, :-1] = old`). -/
def blockCopy (old : List (List ℕ)) (n : ℕ) : List (List ℕ) :=
  (List.range n).map (fun k => (List.range n).map (fun j =>
    if k < n - 1 ∧ j < n - 1 then matGet old k j else 0))

/-- `update_ps_unions_intersections`: delete the removed rows/columns, embed
into fresh (n×n) zero matrices, then for each `k < n−1` set the border
entries against the appended pivot set; the bottom-right diagonal entry is
assigned inside that loop, exactly as in the source. -/
def update_ps_unions_intersections (U I : List (List ℕ)) (toRemove : List ℕ)
    (ps : List (Finset ℤ)) : List (List ℕ) × List (List ℕ) :=
  let U2 := toRemove.foldl deleteRowCol U
  let I2 := toRemove.foldl deleteRowCol I
  let n := ps.length
  let last := ps.getD (n - 1) ∅
  (List.range (n - 1)).foldl (fun mats k =>
    let u := ((ps.getD k ∅) ∪ last).card
    let iv := ((ps.getD k ∅) ∩ last).card
    let mU := setEntry (setEntry mats.1 k (n - 1) u) (n - 1) k u
    let mU := setEntry mU (n - 1) (n - 1) last.card
    let mI := setEntry (setEntry mats.2 k (n - 1) iv) (n - 1) k iv
    let mI := setEntry mI (n - 1) (n - 1) last.card
    (mU, mI)) (blockCopy U2 n, blockCopy I2 n)

/-- The Jaccard score table of `find_next_cluster`:
`scores_table = intersection_sizes / union_sizes` followed by
`np.fill_diagonal(scores_table, 0)`.  NumPy float division is embedded as
exact `ℚ` division. -/
def scoresTable (U I : List (List ℕ)) (i j : ℕ) : ℚ :=
  if i = j then 0 else (matGet I i j : ℚ) / (matGet U i j : ℚ)

/-- First index attaining the maximum of `f` on `range n` (`np.argmax`). -/
def argmaxQ (f : ℕ → ℚ) (n : ℕ) : ℕ :=
  (List.range n).foldl (fun best k => if f best < f k then k else best) 0

/-- Stable ascending insertion of an index by score (ties keep the incoming
index in front, which after the final reversal puts the higher index first,
as NumPy's small-array `argsort` followed by `[::-1]` does). -/
def insertAsc (v : ℕ → ℚ) (i : ℕ) : List ℕ → List ℕ
  | [] => [i]
  | j :: rest => if v i ≤ v j then i :: j :: rest else j :: insertAsc v i rest

/-- `np.argsort(row)[::-1]`: indices of `range n` sorted by score descending. -/
def argsortDesc (v : ℕ → ℚ) (n : ℕ) : List ℕ :=
  ((List.range n).foldr (insertAsc v) []).reverse

/-- The partner-collection loop of `find_next_cluster`: append the candidate,
stop if its Jaccard score is 0 (once the cluster has a partner), stop when
the cluster reached `max_cluster_size`. -/
def partnerLoop (score : ℕ → ℚ) (maxC : ℕ) : List ℕ → List ℕ → List ℕ
  | acc, [] => acc
  | acc, idx :: rest =>
    let acc2 := acc ++ [idx]
    if score idx = 0 ∧ acc2.length > 1 then acc2
    else if acc2.length = maxC then acc2
    else partnerLoop score maxC acc2 rest

/-- `find_next_cluster` from `helpers.py`. -/
def find_next_cluster (ps : List (Finset ℤ)) (U I : List (List ℕ))
    (maxC : ℕ) : List ℕ :=
  let n := ps.length
  if n ≤ maxC then List.range n
  else
    let rowScore : ℕ → ℚ := fun k =>
      ((List.range n).map (fun j => (scoresTable U I k j) ^ 2)).foldl max 0
    let best := argmaxQ rowScore n
    let sorted := (argsortDesc (scoresTable U I best) n).filter (· ≠ best)
    partnerLoop (scoresTable U I best) maxC [best] (sorted.take maxC)

/-- The Jaccard matrix as the specification words it: `J = I / U`, taken as 0
on the diagonal and wherever `U = 0`. -/
def specJaccard (U I : List (List ℕ)) (i j : ℕ) : ℚ :=
  if i = j ∨ matGet U i j = 0 then 0 else (matGet I i j : ℚ) / (matGet U i j : ℚ)

/-- Partner selection as the claim words it: walk the remaining indices in
descending-Jaccard order, taking at most `quota` of them and stopping at a
zero-Jaccard candidate (which, once at least one partner is being taken, is
the last one taken). -/
def specPartners (score : ℕ → ℚ) (quota : ℕ) : List ℕ → List ℕ
  | [] => []
  | j :: rest =>
    if quota = 0 then []
    else if score j = 0 then [j]
    else j :: specPartners score (quota - 1) rest

/-- `find_next_cluster` as the claim describes it: all indices when
`n ≤ max_cluster_size`; otherwise the row `k*` maximizing `max_j J[k,j]²`
(ties to the lowest index) followed by up to `max_cluster_size − 1` other
indices in descending `J[k*,·]` order with the zero-Jaccard early stop. -/
def findNextClusterSpec (ps : List (Finset ℤ)) (U I : List (List ℕ))
    (maxC : ℕ) : List ℕ :=
  let n := ps.length
  if n ≤ maxC then List.range n
  else
    let rowScore : ℕ → ℚ := fun k =>
      ((List.range n).map (fun j => (specJaccard U I k j) ^ 2)).foldl max 0
    let kstar := argmaxQ rowScore n
    kstar :: specPartners (specJaccard U I kstar) (maxC - 1)
      ((argsortDesc (specJaccard U I kstar) n).filter (· ≠ kstar))

/-- The tuple-based AST of `rule_parser.py` / `rule_converter.py`:
`("var", negated, name)` and `("op", operator, left, right)`. -/
inductive Ast where
  | var (negated : Bool) (name : String)
  | op (o : String) (l r : Ast)
deriving DecidableEq

/-- Modelled from the spec: `StateVector.negate_variables` lifts the cube
operation pointwise over the cubes (`state_vector.py` is not among the
sources; the spec states the lift and the tests exercise it). -/
def svNegate (A : List TObject) (idxs : List ℤ) : List TObject :=
  A.map (fun t => t.negate_variables idxs)

/-- The binary-rule dictionary `op_map` of `RuleConverter._visit_op`;
`None` embeds the `NotImplementedError` for an unknown operator. -/
def binOpMap (o : String) (i1 i2 : ℤ) : Option (List TObject) :=
  if o = "&&" then some [mkT {i1, i2} ∅]
  else if o = "||" then some [mkT {i1} ∅, mkT {i2} {i1}]
  else if o = "^^" then some [mkT {i1} {i2}, mkT {i2} {i1}]
  else if o = "=>" then some [mkT {i1, i2} ∅, mkT ∅ {i1}]
  else if o = "<=" then some [mkT {i1} ∅, mkT ∅ {i1, i2}]
  else if o = "=" then some [mkT {i1, i2} ∅, mkT ∅ {i1, i2}]
  else none

/-- `RuleConverter._create_triplet_sv`: the state vector for the triplet rule
`x1 = (x2 op x3)` over indices `(i1, i2, i3)`. -/
def create_triplet_sv (o : String) (i1 i2 i3 : ℤ) : Option (List TObject) :=
  if o = "&&" then
    some [mkT {i1, i2, i3} ∅, mkT ∅ {i1, i2}, mkT {i2} {i1, i3}]
  else if o = "||" then
    some [mkT {i1, i2} ∅, mkT {i1, i3} {i2}, mkT ∅ {i1, i2, i3}]
  else if o = "^^" then
    some [mkT {i1, i2} {i3}, mkT {i1, i3} {i2}, mkT ∅ {i1, i2, i3},
      mkT {i2, i3} {i1}]
  else if o = "=>" then
    some [mkT {i1, i2, i3} ∅, mkT {i1} {i2}, mkT {i2} {i1, i3}]
  else if o = "<=" then
    some [mkT {i1, i2} ∅, mkT {i1} {i2, i3}, mkT {i3} {i1, i2}]
  else if o = "=" then
    some [mkT {i1, i2, i3} ∅, mkT {i1} {i2, i3}, mkT {i2} {i1, i3},
      mkT {i3} {i1, i2}]
  else none

/-- `RuleConverter._visit_op` on a simple AST: the binary case when both
children are variables, otherwise the triplet case of an equivalence with a
variable on one side and a two-variable operation on the other (the sides
are swapped when the right child is the operation); every remaining shape
raises (`none`).  Variable lookup is a total map, as every name of a simple
AST is in the converter's full variable map. -/
def visitOp (o : String) (l r : Ast) (vm : String → ℤ) : Option (List TObject) :=
  match l, r with
  | .var lneg lname, .var rneg rname =>
    let i1 := vm lname
    let i2 := vm rname
    let toNeg := (if lneg then [i1] else []) ++ (if rneg then [i2] else [])
    (binOpMap o i1 i2).map (fun sv => svNegate sv toNeg)
  | _, _ =>
    if o = "=" then
      let ts := match r with
        | .op o2 l2 r2 => (Ast.op o2 l2 r2, l)
        | _ => (l, r)
      match ts.2, ts.1 with
      | .var sneg sname, .op innerOp (.var lneg lname) (.var rneg rname) =>
        let i1 := vm sname
        let i2 := vm lname
        let i3 := vm rname
        let toNeg := (if sneg then [i1] else []) ++
          (if lneg then [i2] else []) ++ (if rneg then [i3] else [])
        (create_triplet_sv innerOp i1 i2 i3).map (fun sv => svNegate sv toNeg)
      | _, _ => none
    else none

/-- The binary code table exactly as written in the specification (read
`{1=…, 0=…}` as a cube with those ones and zeros). -/
def specBinaryCubes (o : String) (i j : ℤ) : Option (List TObject) :=
  match o with
  | "&&" => some [mkT {i, j} ∅]
  | "||" => some [mkT {i} ∅, mkT {j} {i}]
  | "^^" => some [mkT {i} {j}, mkT {j} {i}]
  | "=>" => some [mkT {i, j} ∅, mkT ∅ {i}]
  | "<=" => some [mkT {i} ∅, mkT ∅ {i, j}]
  | "=" => some [mkT {i, j} ∅, mkT ∅ {i, j}]
  | _ => none

/-- The triplet code table for `x = (a op b)` over `(ix, ia, ib)` exactly as
written in the specification. -/
def specTripletCubes (o : String) (ix ia ib : ℤ) : Option (List TObject) :=
  match o with
  | "&&" => some [mkT {ix, ia, ib} ∅, mkT ∅ {ix, ia}, mkT {ia} {ix, ib}]
  | "||" => some [mkT {ix, ia} ∅, mkT {ix, ib} {ia}, mkT ∅ {ix, ia, ib}]
  | "^^" => some [mkT {ix, ia} {ib}, mkT {ix, ib} {ia}, mkT ∅ {ix, ia, ib},
      mkT {ia, ib} {ix}]
  | "=>" => some [mkT {ix, ia, ib} ∅, mkT {ix} {ia}, mkT {ia} {ix, ib}]
  | "<=" => some [mkT {ix, ia} ∅, mkT {ix} {ia, ib}, mkT {ib} {ix, ia}]
  | "=" => some [mkT {ix, ia, ib} ∅, mkT {ix} {ia, ib}, mkT {ia} {ix, ib},
      mkT {ib} {ix, ia}]
  | _ => none

/-- The equivalence operator string, named so it can be passed as an argument. -/
def eqOpStr : String := "="

/-- The per-conversion state of `RuleConverter` during
`_replace_duplicates_recursive`: the names seen so far (`seen_vars`), the
auxiliary counter, the auxiliary map (insertion ordered) and the emitted
equality ASTs. -/
structure RdState where
  seen : List String
  counter : ℕ
  auxMap : List (String × ℤ)
  eqs : List Ast
deriving DecidableEq

/-- The dummy name `__aux_k`. -/
def auxName (k : ℕ) : String := "__aux_" ++ toString k

/-- `RuleConverter._replace_duplicates_recursive`: the first occurrence of a
name is kept and recorded, a later occurrence is replaced by a fresh dummy
carrying the same negation flag, with the map entry `__aux_k ↦ −k` and the
equality AST `name = __aux_k` emitted. -/
def replaceDups : Ast → RdState → Ast × RdState
  | .var neg name, st =>
    if name ∈ st.seen then
      let k := st.counter + 1
      let dn := auxName k
      (.var neg dn,
        { st with
          counter := k
          auxMap := st.auxMap ++ [(dn, -(k : ℤ))]
          eqs := st.eqs ++ [.op eqOpStr (.var false name) (.var false dn)] })
    else
      (.var neg name, { st with seen := st.seen ++ [name] })
  | .op o l r, st =>
    let lres := replaceDups l st
    let rres := replaceDups r lres.2
    (.op o lres.1 rres.1, rres.2)

/-- `_handle_repeated_variables_in_ast` starts from an empty seen set; the
counter and auxiliary map were reset by `convert`. -/
def handleRepeated (ast : Ast) : Ast × RdState :=
  replaceDups ast ⟨[], 0, [], []⟩

/-- The operator skeleton of an AST (everything except the variables). -/
inductive Shape where
  | leaf : Shape
  | node (o : String) (l r : Shape) : Shape
deriving DecidableEq

def astShape : Ast → Shape
  | .var _ _ => .leaf
  | .op o l r => .node o (astShape l) (astShape r)

/-- The variable occurrences of an AST in traversal order. -/
def astVars : Ast → List (Bool × String)
  | .var n s => [(n, s)]
  | .op _ l r => astVars l ++ astVars r

/-- The claim's description of the replacement, phrased on the flat list of
variable occurrences: a first occurrence stays, every later occurrence of a
seen name becomes the next auxiliary (same flag) and contributes a pair
(original name, auxiliary name).  Returns the transformed occurrences, the
pairs, the final counter and the final seen list. -/
def specVarsGo : List (Bool × String) → List String → ℕ →
    List (Bool × String) × List (String × String) × ℕ × List String
  | [], _seen, k => ([], [], k, _seen)
  | (n, s) :: rest, _seen, k =>
    if s ∈ _seen then
      let res := specVarsGo rest _seen (k + 1)
      ((n, auxName (k + 1)) :: res.1, (s, auxName (k + 1)) :: res.2.1,
        res.2.2.1, res.2.2.2)
    else
      let res := specVarsGo rest (_seen ++ [s]) k
      ((n, s) :: res.1, res.2.1, res.2.2.1, res.2.2.2)

/-- The un-negated equality AST `v = aux` for a duplicate pair. -/
def mkEqAst (p : String × String) : Ast :=
  .op eqOpStr (.var false p.1) (.var false p.2)

/-- The auxiliary-map entry created by the m-th replacement (0-based):
name `__aux_(m+1)`, index `−(m+1)`. -/
def auxEntry (m : ℕ) : String × ℤ := (auxName (m + 1), -((m : ℤ) + 1))

/-- Modelled from the spec: the pivot set of a state vector is the union of
its cubes' pivot sets. -/
def svPivotSet (A : List TObject) : Finset ℤ :=
  A.foldl (fun acc t => acc ∪ t.pivot_set) ∅

/-- One adjacency-reduction step: find the first reducible pair, scanning
pairs in list order. -/
def findRed : List TObject → Option (TObject × TObject × TObject)
  | [] => none
  | a :: rest =>
    match rest.findSome? (fun b => (a.reduce b).map (fun c => (b, c))) with
    | some (b, c) => some (a, b, c)
    | none => findRed rest

/-- Modelled from the spec: the adjacency-reduction loop of `simplify`,
iterated to a fixed point (each step replaces the pair by its reduction and
re-deduplicates; the cube count strictly decreases, so the list length is
enough fuel). -/
def adjLoop : ℕ → List TObject → List TObject
  | 0, l => l
  | fuel + 1, l =>
    match findRed l with
    | none => l
    | some (a, b, c) => adjLoop fuel ((((l.erase a).erase b) ++ [c]).dedup)

/-- Modelled from the spec: subsumption reduction removes every cube for
which some other cube is a strict-or-equal superset (more general). -/
def subsumptionFilter (l : List TObject) : List TObject :=
  l.filter (fun x => !(l.any (fun y => decide (y ≠ x) && decide (y.is_superset x = 1))))

/-- Modelled from the spec: `StateVector.simplify` — drop nulls, collapse to
the trivial vector when a trivial cube remains, deduplicate, reduce
adjacencies to a fixed point, then optionally remove subsumed cubes.  The
unbounded (`max_num_iter=None`) instantiation. -/
def simplify (A : List TObject) (reduceSub : Bool) : List TObject :=
  let l := A.filter (fun t => !t.is_null)
  if l.any (·.is_trivial) then [TObject.trivT]
  else
    let l2 := adjLoop l.dedup.length l.dedup
    if reduceSub then subsumptionFilter l2 else l2

/-- Modelled from the spec: the state-vector product — the cartesian product
of the cubes, nulls dropped, then simplified. -/
def svMul (A B : List TObject) : List TObject :=
  let prods := A.flatMap (fun a => B.map (fun b => a.mul b))
  simplify (prods.filter (fun t => !t.is_null)) false

/-- Multiply the state vectors selected by a cluster, in sequence. -/
def multiplyCluster (svs : List (List TObject)) (cluster : List ℕ) :
    List TObject :=
  match cluster with
  | [] => [TObject.trivT]
  | i :: rest => rest.foldl (fun acc j => svMul acc (svs.getD j [])) (svs.getD i [])

/-- Remove the entries at the given positions. -/
def removeIdxs {α : Type} (l : List α) (dflt : α) (idxs : List ℕ) : List α :=
  ((List.range l.length).filter (fun i => decide (i ∉ idxs))).map
    (fun i => l.getD i dflt)

/-- Descending insertion sort on indices (the removal order the incremental
matrix update expects). -/
def insertDesc (i : ℕ) : List ℕ → List ℕ
  | [] => [i]
  | j :: rest => if j ≤ i then i :: j :: rest else j :: insertDesc i rest

def sortDescNat (l : List ℕ) : List ℕ := l.foldr insertDesc []

/-- Modelled from the spec: the scheduler loop (§4.4, step 4) — while more
than one state vector remains, pick a cluster with `max_cluster_size = 2`,
multiply it, simplify with subsumption, return early on a contradiction,
otherwise replace the cluster by the product and update the matrices
incrementally.  The vector count decreases every round, so the initial
count is enough fuel. -/
def schedLoop : ℕ → List (List TObject) → List (Finset ℤ) →
    List (List ℕ) → List (List ℕ) → List TObject
  | 0, svs, _, _, _ => svs.headD [TObject.trivT]
  | fuel + 1, svs, ps, U, I =>
    if svs.length ≤ 1 then svs.headD [TObject.trivT]
    else
      let cluster := find_next_cluster ps U I 2
      let s2 := simplify (multiplyCluster svs cluster) true
      if svIsContradiction s2 then []
      else
        let svs2 := removeIdxs svs [] cluster ++ [s2]
        let ps2 := removeIdxs ps ∅ cluster ++ [svPivotSet s2]
        let m := update_ps_unions_intersections U I (sortDescNat cluster) ps2
        schedLoop fuel svs2 ps2 m.1 m.2

/-- Modelled from the spec: the compiler scheduler (§4.4) — drop trivial
state vectors, return a contradiction early if one is present, compute the
pivot-set matrices and run the loop.  An empty input compiles to the
identity, the trivial state vector. -/
def scheduler (svs : List (List TObject)) : List TObject :=
  let svs2 := svs.filter (fun s => !(svIsTrivial s))
  if svs2.any (fun s => svIsContradiction s) then []
  else
    let ps := svs2.map svPivotSet
    schedLoop svs2.length svs2 ps (calcUnions ps) (calcIntersections ps)

/-- The token alphabet of the rule grammar: identifiers, brackets, negation
and the seven operator spellings (`rule_parser.py` builds them from
`pp.Word`, parentheses handled by `infixNotation`, and
`pp.oneOf` for the equivalence level). -/
inductive Tok where
  | ident (s : String)
  | lparen
  | rparen
  | bang
  | andT
  | orT
  | xorT
  | impT
  | revT
  | eqT
  | iffT
deriving DecidableEq

def isIdentStart (c : Char) : Bool := c.isAlpha || c = '_'

def isIdentChar (c : Char) : Bool := c.isAlpha || c.isDigit || c = '_'

def isSpaceChar (c : Char) : Bool := c = ' ' || c = '\t' || c = '\n'

/-- Modelled from the spec: the token scanner of the rule grammar (§4.5) —
whitespace separates tokens, identifiers are `[A-Za-z_][A-Za-z0-9_]*` with
maximal munch, operators are matched longest-first (`<=>` before `<=`), and
any other character is an invalid-character error.  The `pyparsing` engine
used by the source is an external library; this scanner realizes the token
set its grammar declares. -/
def tokenizeF : ℕ → List Char → Except String (List Tok)
  | 0, _ => .error "out of fuel"
  | _ + 1, [] => .ok []
  | fuel + 1, '(' :: cs => (tokenizeF fuel cs).map (fun ts => .lparen :: ts)
  | fuel + 1, ')' :: cs => (tokenizeF fuel cs).map (fun ts => .rparen :: ts)
  | fuel + 1, '!' :: cs => (tokenizeF fuel cs).map (fun ts => .bang :: ts)
  | fuel + 1, '&' :: '&' :: cs => (tokenizeF fuel cs).map (fun ts => .andT :: ts)
  | fuel + 1, '|' :: '|' :: cs => (tokenizeF fuel cs).map (fun ts => .orT :: ts)
  | fuel + 1, '^' :: '^' :: cs => (tokenizeF fuel cs).map (fun ts => .xorT :: ts)
  | fuel + 1, '=' :: '>' :: cs => (tokenizeF fuel cs).map (fun ts => .impT :: ts)
  | fuel + 1, '<' :: '=' :: '>' :: cs => (tokenizeF fuel cs).map (fun ts => .iffT :: ts)
  | fuel + 1, '<' :: '=' :: cs => (tokenizeF fuel cs).map (fun ts => .revT :: ts)
  | fuel + 1, '=' :: cs => (tokenizeF fuel cs).map (fun ts => .eqT :: ts)
  | fuel + 1, c :: cs =>
    if isSpaceChar c then tokenizeF fuel cs
    else if isIdentStart c then
      (tokenizeF fuel (cs.dropWhile isIdentChar)).map
        (fun ts => .ident (String.mk (c :: cs.takeWhile isIdentChar)) :: ts)
    else .error "invalid character"

def tokenize (l : List Char) : Except String (List Tok) :=
  tokenizeF (l.length + 1) l

/-- The precedence level whose chains a token continues (2 = `&&`, 3 = `||`,
4 = `^^`, 5 = the equivalence level); 0 for non-operator tokens. -/
def contLevel : Tok → ℕ
  | .andT => 2
  | .orT => 3
  | .xorT => 4
  | .impT => 5
  | .revT => 5
  | .eqT => 5
  | .iffT => 5
  | _ => 0

/-- The operator string a token contributes to the AST; the transformer maps
the sugar `<=>` to `=`. -/
def tokOpStr : Tok → String
  | .andT => "&&"
  | .orT => "||"
  | .xorT => "^^"
  | .impT => "=>"
  | .revT => "<="
  | .eqT => "="
  | .iffT => "="
  | _ => ""

/-- The parser mode: `lev k` parses one level-`k` expression from the front
of the token list; `loop k acc` is the left-associative continuation that
folds further level-`k` operators onto the already parsed operand `acc`. -/
inductive PMode where
  | lev (k : ℕ)
  | loop (k : ℕ) (acc : Ast)

/-- Modelled from the spec: the precedence-climbing parser realizing the
`infixNotation` grammar of `rule_parser.py`.  `lev 1` parses an identifier
(rejecting names outside the variable map), a parenthesized full expression,
or `!` applied to a level-1 operand that must reduce to a variable node
(`transform_unary_op` raises otherwise — so `!` of a compound parenthesized
expression fails while `!` of a bare or negated identifier succeeds).
`lev (k+2)` parses a level-`(k+1)` operand and enters `loop (k+2)`, which
folds trailing level-`(k+2)` operators left-associatively
(`transform_binary_op`'s left fold).  `fuel` decreases on every recursive
call; the top entry supplies enough fuel for any input. -/
def parseF (vd : String → Bool) : ℕ → PMode → List Tok → Except String (Ast × List Tok)
  | 0, _, _ => .error "out of fuel"
  | fuel + 1, .lev 1, ts =>
    match ts with
    | .ident s :: rest =>
      if vd s then .ok (.var false s, rest) else .error "undefined variable"
    | .lparen :: rest =>
      match parseF vd fuel (.lev 5) rest with
      | .ok (a, .rparen :: rest2) => .ok (a, rest2)
      | .ok (_, _) => .error "mismatched brackets"
      | .error e => .error e
    | .bang :: rest =>
      match parseF vd fuel (.lev 1) rest with
      | .ok (.var _ s, rest2) => .ok (.var true s, rest2)
      | .ok (_, _) => .error "negation of expressions in parentheses is not allowed"
      | .error e => .error e
    | _ => .error "expected an expression"
  | fuel + 1, .lev (k + 2), ts =>
    match parseF vd fuel (.lev (k + 1)) ts with
    | .ok (a, rest) => parseF vd fuel (.loop (k + 2) a) rest
    | .error e => .error e
  | _ + 1, .lev 0, _ => .error "no such level"
  | fuel + 1, .loop k acc, ts =>
    match ts with
    | t :: rest =>
      if contLevel t = k then
        match parseF vd fuel (.lev (k - 1)) rest with
        | .ok (b, rest2) => parseF vd fuel (.loop k (.op (tokOpStr t) acc b)) rest2
        | .error e => .error e
      else .ok (acc, ts)
    | [] => .ok (acc, ts)

/-- `RuleParser.parse`: reject the empty string, tokenize, parse a full
level-5 expression, and reject leftover tokens (`parseAll=True`).  All
failures surface as the single invalid-rule-syntax error class, embedded as
`Except.error`. -/
def parse (vd : String → Bool) (s : List Char) : Except String Ast :=
  if s = [] then .error "cannot parse an empty rule string"
  else
    match tokenize s with
    | .error e => .error e
    | .ok ts =>
      match parseF vd (8 * ts.length + 8) (.lev 5) ts with
      | .ok (a, []) => .ok a
      | .ok (_, _ :: _) => .error "unexpected trailing tokens"
      | .error e => .error e

/-- The derivation relation of the rule grammar, indexed by precedence
level, with the semantic checks of the source's transform actions built in:
an identifier must be in the variable map, and `!` applies only to an
operand that derives a variable node (so `!` of a parenthesized bare
identifier is derivable, `!` of a parenthesized compound expression is not).
Level-`k` chains are left-associative folds of level-`(k−1)` operands, and
`<=>` contributes the operator string `=`. -/
inductive Deriv (vd : String → Bool) : ℕ → List Tok → Ast → Prop where
  | ident (s : String) (h : vd s = true) : Deriv vd 1 [.ident s] (.var false s)
  | paren (w : List Tok) (a : Ast) : Deriv vd 5 w a →
      Deriv vd 1 (.lparen :: (w ++ [.rparen])) a
  | bang (w : List Tok) (n : Bool) (s : String) : Deriv vd 1 w (.var n s) →
      Deriv vd 1 (.bang :: w) (.var true s)
  | up (k : ℕ) (w : List Tok) (a : Ast) : Deriv vd (k + 1) w a →
      Deriv vd (k + 2) w a
  | bin (k : ℕ) (t : Tok) (w1 w2 : List Tok) (a b : Ast)
      (h : contLevel t = k + 2) :
      Deriv vd (k + 2) w1 a → Deriv vd (k + 1) w2 b →
      Deriv vd (k + 2) (w1 ++ t :: w2) (.op (tokOpStr t) a b)

/-- A token list ahead of the parser at which a level-`k` chain stops:
empty, or headed by a token that continues no chain at any level `≤ k`. -/
def Stops (k : ℕ) : List Tok → Prop
  | [] => True
  | t :: _ => contLevel t = 0 ∨ k < contLevel t

/-- The word contributed by the operator/operand continuation list of a
binary chain. -/
def chainWord (ps : List (Tok × List Tok × Ast)) : List Tok :=
  (ps.map (fun p => p.1 :: p.2.1)).flatten

/-- The AST obtained by left-folding the continuation list of a binary
chain onto a first operand, as `transform_binary_op` does. -/
def chainAst (a0 : Ast) (ps : List (Tok × List Tok × Ast)) : Ast :=
  ps.foldl (fun acc p => .op (tokOpStr p.1) acc p.2.2) a0

/-- The variable map of the counterexample: `x1` is the only defined name. -/
def vdX1 : String → Bool := fun s => s = "x1"

/-- The counterexample input: `!` applied to a parenthesized subexpression. -/
def cexC9 : List Char := ['!', '(', 'x', '1', ')']

lemma mkT_inv (o z : Finset ℤ) : (mkT o z).inv := by
  unfold mkT TObject.inv
  split_ifs with h
  · exact ⟨h, by simp⟩
  · exact ⟨by simp, fun _ => ⟨rfl, rfl⟩⟩

lemma nullT_inv : TObject.nullT.inv := by decide

lemma mkT_eq_self (t : TObject) (hd : t.ones ∩ t.zeros = ∅) (hn : t.is_null = false) :
    mkT t.ones t.zeros = t := by
  unfold mkT
  rw [if_pos hd]
  cases t
  simp_all

lemma mul_comm' (a b : TObject) : a.mul b = b.mul a := by
  unfold TObject.mul
  rw [Bool.or_comm, Finset.union_comm a.ones, Finset.union_comm a.zeros]

lemma null_mul (b : TObject) (h : TObject.is_null b = true) (a : TObject) :
    a.mul b = TObject.nullT := by
  unfold TObject.mul
  rw [h, Bool.or_true, if_pos rfl]

lemma mul_null (a : TObject) (h : TObject.is_null a = true) (b : TObject) :
    a.mul b = TObject.nullT := by
  unfold TObject.mul
  rw [h, Bool.true_or, if_pos rfl]

lemma inter_empty_of_subset {s t u v : Finset ℤ} (hs : s ⊆ u) (ht : t ⊆ v)
    (h : u ∩ v = ∅) : s ∩ t = ∅ := by
  have h2 := Finset.inter_subset_inter hs ht
  rw [h] at h2
  exact Finset.subset_empty.mp h2

lemma mul_assoc' (a b c : TObject) : (a.mul b).mul c = a.mul (b.mul c) := by
  by_cases ha : a.is_null
  · rw [mul_null a ha, mul_null _ rfl, mul_null a ha]
  by_cases hb : b.is_null
  · rw [null_mul b hb, mul_null _ rfl, mul_null b hb, null_mul _ rfl]
  by_cases hc : c.is_null
  · rw [null_mul c hc, null_mul c hc, null_mul _ rfl]
  simp only [Bool.not_eq_true] at ha hb hc
  by_cases hbig :
      (a.ones ∪ b.ones ∪ c.ones) ∩ (a.zeros ∪ b.zeros ∪ c.zeros) = ∅
  · have hab : (a.ones ∪ b.ones) ∩ (a.zeros ∪ b.zeros) = ∅ :=
      inter_empty_of_subset (Finset.subset_union_left)
        (Finset.subset_union_left) hbig
    have hbc : (b.ones ∪ c.ones) ∩ (b.zeros ∪ c.zeros) = ∅ :=
      inter_empty_of_subset
        (Finset.union_subset_union Finset.subset_union_right (subset_refl _)
          |>.trans (by rw [Finset.union_assoc]))
        (Finset.union_subset_union Finset.subset_union_right (subset_refl _)
          |>.trans (by rw [Finset.union_assoc]))
        hbig
    unfold TObject.mul mkT
    rw [ha, hb, hc]
    simp only [Bool.or_self, Bool.false_or, Bool.false_eq_true, if_false,
      if_pos hab, if_pos hbc]
    rw [if_pos hbig]
    rw [if_pos (by rw [← Finset.union_assoc, ← Finset.union_assoc]; exact hbig)]
    simp [Finset.union_assoc]
  · -- the total fixings overlap: both sides are null
    unfold TObject.mul mkT
    rw [ha, hb, hc]
    simp only [Bool.or_self, Bool.false_or]
    by_cases hab : (a.ones ∪ b.ones) ∩ (a.zeros ∪ b.zeros) = ∅ <;>
      by_cases hbc : (b.ones ∪ c.ones) ∩ (b.zeros ∪ c.zeros) = ∅ <;>
        split_ifs <;> simp_all [TObject.nullT, Finset.union_assoc]

lemma mul_self' (a : TObject) (h : a.inv) : a.mul a = a := by
  by_cases ha : a.is_null
  · rw [mul_null a ha]
    obtain ⟨h1, h2⟩ := h
    obtain ⟨ho, hz⟩ := h2 ha
    cases a
    simp_all [TObject.nullT]
  · simp only [Bool.not_eq_true] at ha
    unfold TObject.mul
    rw [ha]
    simp only [Bool.or_self, Bool.false_eq_true, if_false, Finset.union_self]
    exact mkT_eq_self a h.1 ha

lemma mul_trivT (a : TObject) (h : a.inv) : a.mul TObject.trivT = a := by
  by_cases ha : a.is_null
  · rw [mul_null a ha]
    obtain ⟨h1, h2⟩ := h
    obtain ⟨ho, hz⟩ := h2 ha
    cases a
    simp_all [TObject.nullT]
  · simp only [Bool.not_eq_true] at ha
    unfold TObject.mul TObject.trivT
    rw [ha]
    simp only [Bool.or_self, Bool.false_eq_true, if_false, Finset.union_empty]
    exact mkT_eq_self a h.1 ha

lemma not_mem_both {s t : Finset ℤ} (h : s ∩ t = ∅) (i : ℤ) : ¬(i ∈ s ∧ i ∈ t) := by
  intro hmem
  have h2 : i ∈ s ∩ t := Finset.mem_inter.mpr hmem
  simp [h] at h2

lemma reduce_of_adjacentAt (a b : TObject) (ha : a.inv) (hb : b.inv) (i : ℤ)
    (h : TObject.adjacentAt a b i) :
    a.reduce b = some (mkT (a.ones.erase i) (a.zeros.erase i)) := by
  obtain ⟨hmem, hOnes, hZeros⟩ := h
  rcases hmem with ⟨hio, hiz⟩ | ⟨hiz, hio⟩
  · -- i is fixed to 1 in a and to 0 in b
    have hiaz : i ∉ a.zeros := fun h2 => not_mem_both ha.1 i ⟨hio, h2⟩
    have hibo : i ∉ b.ones := fun h2 => not_mem_both hb.1 i ⟨h2, hiz⟩
    have hbo : b.ones = a.ones.erase i := by
      rw [hOnes, Finset.erase_eq_of_not_mem hibo]
    have haz : a.zeros = a.zeros.erase i := (Finset.erase_eq_of_not_mem hiaz).symm
    have hbz : b.zeros = insert i a.zeros := by
      have h1 : b.zeros.erase i = a.zeros := by rw [← hZeros, ← haz]
      rw [← h1, Finset.insert_erase hiz]
    have haoi : a.ones = insert i b.ones := by rw [hbo, Finset.insert_erase hio]
    have hc1 : a.ones.card = b.ones.card + 1 := by
      rw [haoi, Finset.card_insert_of_not_mem hibo]
    have hc2 : b.zeros.card = a.zeros.card + 1 := by
      rw [hbz, Finset.card_insert_of_not_mem hiaz]
    have hD1 : (a.ones \ b.ones) ∪ (b.ones \ a.ones) = {i} := by
      ext j
      simp only [Finset.mem_union, Finset.mem_sdiff, Finset.mem_singleton]
      constructor
      · rintro (⟨hj1, hj2⟩ | ⟨hj1, hj2⟩)
        · by_contra hne
          exact hj2 (hbo ▸ Finset.mem_erase.mpr ⟨hne, hj1⟩)
        · exact absurd (haoi ▸ Finset.mem_insert_of_mem hj1) hj2
      · rintro rfl
        exact Or.inl ⟨hio, hibo⟩
    have hD2 : (a.zeros \ b.zeros) ∪ (b.zeros \ a.zeros) = {i} := by
      ext j
      simp only [Finset.mem_union, Finset.mem_sdiff, Finset.mem_singleton]
      constructor
      · rintro (⟨hj1, hj2⟩ | ⟨hj1, hj2⟩)
        · exact absurd (hbz ▸ Finset.mem_insert_of_mem hj1) hj2
        · by_contra hne
          rw [hbz] at hj1
          exact hj2 ((Finset.mem_insert.mp hj1).resolve_left hne)
      · rintro rfl
        exact Or.inr ⟨hiz, hiaz⟩
    simp only [TObject.reduce]
    have hod : (a.ones.card : ℤ) - b.ones.card = 1 := by rw [hc1]; push_cast; ring
    have hzd : (a.zeros.card : ℤ) - b.zeros.card = -1 := by rw [hc2]; push_cast; ring
    rw [if_pos (Or.inl ⟨hod, hzd⟩), hD1, hD2]
    rw [if_pos (by simp), if_pos rfl]
    rw [if_pos (by rw [Finset.singleton_inter_of_mem hio]; exact Finset.singleton_ne_empty i)]
    rw [hbo]
    exact congrArg (fun s => some (mkT (a.ones.erase i) s)) haz
  · -- i is fixed to 0 in a and to 1 in b
    have hiao : i ∉ a.ones := fun h2 => not_mem_both ha.1 i ⟨h2, hiz⟩
    have hibz : i ∉ b.zeros := fun h2 => not_mem_both hb.1 i ⟨hio, h2⟩
    have hbz : b.zeros = a.zeros.erase i := by
      rw [hZeros, Finset.erase_eq_of_not_mem hibz]
    have hao : a.ones = a.ones.erase i := (Finset.erase_eq_of_not_mem hiao).symm
    have hbo : b.ones = insert i a.ones := by
      have h1 : b.ones.erase i = a.ones := by rw [← hOnes, ← hao]
      rw [← h1, Finset.insert_erase hio]
    have hazi : a.zeros = insert i b.zeros := by rw [hbz, Finset.insert_erase hiz]
    have hc1 : b.ones.card = a.ones.card + 1 := by
      rw [hbo, Finset.card_insert_of_not_mem hiao]
    have hc2 : a.zeros.card = b.zeros.card + 1 := by
      rw [hazi, Finset.card_insert_of_not_mem hibz]
    have hD1 : (a.ones \ b.ones) ∪ (b.ones \ a.ones) = {i} := by
      ext j
      simp only [Finset.mem_union, Finset.mem_sdiff, Finset.mem_singleton]
      constructor
      · rintro (⟨hj1, hj2⟩ | ⟨hj1, hj2⟩)
        · exact absurd (hbo ▸ Finset.mem_insert_of_mem hj1) hj2
        · by_contra hne
          rw [hbo] at hj1
          exact hj2 ((Finset.mem_insert.mp hj1).resolve_left hne)
      · rintro rfl
        exact Or.inr ⟨hio, hiao⟩
    have hD2 : (a.zeros \ b.zeros) ∪ (b.zeros \ a.zeros) = {i} := by
      ext j
      simp only [Finset.mem_union, Finset.mem_sdiff, Finset.mem_singleton]
      constructor
      · rintro (⟨hj1, hj2⟩ | ⟨hj1, hj2⟩)
        · by_contra hne
          exact hj2 (hbz ▸ Finset.mem_erase.mpr ⟨hne, hj1⟩)
        · exact absurd (hazi ▸ Finset.mem_insert_of_mem hj1) hj2
      · rintro rfl
        exact Or.inl ⟨hiz, hibz⟩
    simp only [TObject.reduce]
    have hod : (a.ones.card : ℤ) - b.ones.card = -1 := by rw [hc1]; push_cast; ring
    have hzd : (a.zeros.card : ℤ) - b.zeros.card = 1 := by rw [hc2]; push_cast; ring
    rw [if_pos (Or.inr ⟨hod, hzd⟩), hD1, hD2]
    rw [if_pos (by simp), if_pos rfl]
    rw [if_neg (by rw [Finset.singleton_inter_of_not_mem hiao]; simp)]
    rw [hbz]
    exact congrArg (fun s => some (mkT s (a.zeros.erase i))) hao

lemma conds_of_reduce (a b c : TObject) (h : a.reduce b = some c) :
    ((a.ones \ b.ones) ∪ (b.ones \ a.ones)).card = 1 ∧
    (a.ones \ b.ones) ∪ (b.ones \ a.ones) = (a.zeros \ b.zeros) ∪ (b.zeros \ a.zeros) := by
  simp only [TObject.reduce] at h
  split_ifs at h with h1 h2 h3 h4
  · exact ⟨h2, h3⟩
  · exact ⟨h2, h3⟩

lemma adjacentAt_of_conds (a b : TObject) (ha : a.inv) (hb : b.inv) (i : ℤ)
    (hD : (a.ones \ b.ones) ∪ (b.ones \ a.ones) = {i})
    (hEq : (a.ones \ b.ones) ∪ (b.ones \ a.ones) =
      (a.zeros \ b.zeros) ∪ (b.zeros \ a.zeros)) :
    TObject.adjacentAt a b i := by
  have hD2 : (a.zeros \ b.zeros) ∪ (b.zeros \ a.zeros) = {i} := by rw [← hEq, hD]
  have hiD1 := hD ▸ Finset.mem_singleton_self i
  have hiD2 := hD2 ▸ Finset.mem_singleton_self i
  simp only [Finset.mem_union, Finset.mem_sdiff] at hiD1 hiD2
  refine ⟨?_, ?_, ?_⟩
  · have h1 := not_mem_both ha.1 i
    have h2 := not_mem_both hb.1 i
    tauto
  · ext j
    simp only [Finset.mem_erase]
    constructor
    · rintro ⟨hne, hj⟩
      refine ⟨hne, ?_⟩
      by_contra hjb
      have : j ∈ ({i} : Finset ℤ) := hD ▸ (Finset.mem_union_left _ (Finset.mem_sdiff.mpr ⟨hj, hjb⟩))
      simp_all
    · rintro ⟨hne, hj⟩
      refine ⟨hne, ?_⟩
      by_contra hja
      have : j ∈ ({i} : Finset ℤ) := hD ▸ (Finset.mem_union_right _ (Finset.mem_sdiff.mpr ⟨hj, hja⟩))
      simp_all
  · ext j
    simp only [Finset.mem_erase]
    constructor
    · rintro ⟨hne, hj⟩
      refine ⟨hne, ?_⟩
      by_contra hjb
      have : j ∈ ({i} : Finset ℤ) := hD2 ▸ (Finset.mem_union_left _ (Finset.mem_sdiff.mpr ⟨hj, hjb⟩))
      simp_all
    · rintro ⟨hne, hj⟩
      refine ⟨hne, ?_⟩
      by_contra hja
      have : j ∈ ({i} : Finset ℤ) := hD2 ▸ (Finset.mem_union_right _ (Finset.mem_sdiff.mpr ⟨hj, hja⟩))
      simp_all

lemma mem_d1_of_adjacentAt (a b : TObject) (ha : a.inv) (hb : b.inv) (j : ℤ)
    (h : TObject.adjacentAt a b j) :
    j ∈ (a.ones \ b.ones) ∪ (b.ones \ a.ones) := by
  obtain ⟨hmem, _, _⟩ := h
  rcases hmem with ⟨hjo, hjz⟩ | ⟨hjz, hjo⟩
  · have : j ∉ b.ones := fun h2 => not_mem_both hb.1 j ⟨h2, hjz⟩
    exact Finset.mem_union_left _ (Finset.mem_sdiff.mpr ⟨hjo, this⟩)
  · have : j ∉ a.ones := fun h2 => not_mem_both ha.1 j ⟨h2, hjz⟩
    exact Finset.mem_union_right _ (Finset.mem_sdiff.mpr ⟨hjo, this⟩)

/-- Claim C2: for all cubes `a` and `b` (null cubes included), `a.reduce b`
yields a cube exactly when `a` and `b` are adjacent — there is exactly one
index `i` swapped between the `ones` of one and the `zeros` of the other
while all remaining fixed positions agree — and in that case the result is
the common remainder with `i` removed entirely; otherwise it yields nothing. -/
theorem claim_C2_reduce_iff_adjacent (a b : TObject) (ha : a.inv) (hb : b.inv) :
    ((a.reduce b).isSome ↔ ∃! i, TObject.adjacentAt a b i) ∧
    (∀ i, TObject.adjacentAt a b i →
      a.reduce b = some (mkT (a.ones.erase i) (a.zeros.erase i))) := by
  constructor
  · constructor
    · intro hs
      obtain ⟨c, hc⟩ := Option.isSome_iff_exists.mp hs
      obtain ⟨hcard, hEq⟩ := conds_of_reduce a b c hc
      obtain ⟨i, hi⟩ := Finset.card_eq_one.mp hcard
      refine ⟨i, adjacentAt_of_conds a b ha hb i hi hEq, fun j hj => ?_⟩
      have hmem := mem_d1_of_adjacentAt a b ha hb j hj
      rw [hi] at hmem
      simpa using hmem
    · rintro ⟨i, hi, _⟩
      rw [reduce_of_adjacentAt a b ha hb i hi]
      simp
  · exact fun i hi => reduce_of_adjacentAt a b ha hb i hi

/-- Witness for C2: the cubes `1 0` and `1 1` are adjacent at index 2 and
reduce to the cube `1 -`; the invariant hypotheses hold by computation. -/
theorem claim_C2_reduce_iff_adjacent_witness :
    (mkT {1} {2}).inv ∧ (mkT {1, 2} ∅).inv ∧
    TObject.adjacentAt (mkT {1} {2}) (mkT {1, 2} ∅) 2 ∧
    (mkT {1} {2}).reduce (mkT {1, 2} ∅) =
      some (mkT ((mkT {1} {2}).ones.erase 2) ((mkT {1} {2}).zeros.erase 2)) :=
  ⟨by decide, by decide, by decide,
    (claim_C2_reduce_iff_adjacent (mkT {1} {2}) (mkT {1, 2} ∅)
      (by decide) (by decide)).2 2 (by decide)⟩

/-- Claim C7: the cube product is commutative, associative, idempotent,
null-absorbing, and has the trivial cube as a neutral element, with respect
to structural cube equality on invariant-satisfying cubes. -/
theorem claim_C7_cube_product_laws (a b c : TObject)
    (ha : a.inv) (_hb : b.inv) (_hc : c.inv) :
    a.mul b = b.mul a ∧
    (a.mul b).mul c = a.mul (b.mul c) ∧
    a.mul a = a ∧
    a.mul TObject.nullT = TObject.nullT ∧
    a.mul TObject.trivT = a :=
  ⟨mul_comm' a b, mul_assoc' a b c, mul_self' a ha, null_mul _ rfl a, mul_trivT a ha⟩

/-- Witness for C7 at the concrete cubes `1 -`, `- 0`, `1 1`. -/
theorem claim_C7_cube_product_laws_witness :
    (mkT {1} ∅).mul (mkT ∅ {2}) = (mkT ∅ {2}).mul (mkT {1} ∅) ∧
    ((mkT {1} ∅).mul (mkT ∅ {2})).mul (mkT {1, 2} ∅) =
      (mkT {1} ∅).mul ((mkT ∅ {2}).mul (mkT {1, 2} ∅)) ∧
    (mkT {1} ∅).mul (mkT {1} ∅) = mkT {1} ∅ ∧
    (mkT {1} ∅).mul TObject.nullT = TObject.nullT ∧
    (mkT {1} ∅).mul TObject.trivT = mkT {1} ∅ :=
  claim_C7_cube_product_laws (mkT {1} ∅) (mkT ∅ {2}) (mkT {1, 2} ∅)
    (by decide) (by decide) (by decide)

/-- Claim C10: every cube produced by the constructor, the product,
`negate_variables`, `remove_variables` or `reduce` satisfies the invariant
(disjoint `ones`/`zeros`; a null cube has empty sets); on invariant cubes the
Python equality coincides with structural equality, all null cubes are
identical, and equal cubes hash alike. -/
theorem claim_C10_tobject_invariant :
    (∀ o z : Finset ℤ, (mkT o z).inv) ∧
    TObject.nullT.inv ∧
    (∀ a b : TObject, (a.mul b).inv) ∧
    (∀ (a : TObject) (v : List ℤ), (a.negate_variables v).inv) ∧
    (∀ (a : TObject) (v : List ℤ), (a.remove_variables v).inv) ∧
    (∀ a b c : TObject, a.reduce b = some c → c.inv) ∧
    (∀ a b : TObject, a.inv → b.inv →
      a.is_null = true → b.is_null = true → a = b) ∧
    (∀ a b : TObject, a.inv → b.inv → (a.pyEq b = true ↔ a = b)) ∧
    (∀ a b : TObject, a.inv → b.inv → a.pyEq b = true → a.pyHash = b.pyHash) := by
  have hnulls : ∀ a b : TObject, a.inv → b.inv →
      a.is_null = true → b.is_null = true → a = b := by
    intro a b ha hb hna hnb
    obtain ⟨hao, haz⟩ := ha.2 hna
    obtain ⟨hbo, hbz⟩ := hb.2 hnb
    cases a
    cases b
    simp_all
  have hpyEq : ∀ a b : TObject, a.inv → b.inv → (a.pyEq b = true ↔ a = b) := by
    intro a b ha hb
    unfold TObject.pyEq
    by_cases hna : a.is_null
    · rw [if_pos hna]
      constructor
      · intro hnb
        exact hnulls a b ha hb hna hnb
      · rintro rfl
        exact hna
    · rw [if_neg hna]
      simp only [Bool.not_eq_true] at hna
      constructor
      · intro hcond
        simp only [Bool.and_eq_true, Bool.not_eq_true', decide_eq_true_eq] at hcond
        obtain ⟨⟨hnb, ho⟩, hz⟩ := hcond
        cases a
        cases b
        simp_all
      · rintro rfl
        simp [hna]
  refine ⟨mkT_inv, nullT_inv, ?_, ?_, ?_, ?_, hnulls, hpyEq, ?_⟩
  · intro a b
    unfold TObject.mul
    split_ifs
    · exact nullT_inv
    · exact mkT_inv _ _
  · intro a v
    unfold TObject.negate_variables
    split_ifs
    · exact nullT_inv
    · exact mkT_inv _ _
  · intro a v
    unfold TObject.remove_variables
    split_ifs
    · exact nullT_inv
    · exact mkT_inv _ _
  · intro a b c h
    simp only [TObject.reduce] at h
    split_ifs at h
    · rw [← Option.some_inj.mp h]
      exact mkT_inv _ _
    · rw [← Option.some_inj.mp h]
      exact mkT_inv _ _
  · intro a b ha hb h
    rw [(hpyEq a b ha hb).mp h]

/-- Witness for C10: the null-uniqueness and equality parts applied to
concrete null cubes and to the cube `1 0`. -/
theorem claim_C10_tobject_invariant_witness :
    TObject.nullT.inv ∧ (mkT {1} {1}).inv ∧
    TObject.nullT = mkT {1} {1} ∧
    ((mkT {1} {2}).pyEq (mkT {1} {2}) = true ↔ mkT {1} {2} = mkT {1} {2}) := by
  refine ⟨by decide, by decide, ?_, ?_⟩
  · exact claim_C10_tobject_invariant.2.2.2.2.2.2.1 TObject.nullT (mkT {1} {1})
      (by decide) (by decide) (by decide) (by decide)
  · exact claim_C10_tobject_invariant.2.2.2.2.2.2.2.1 (mkT {1} {2}) (mkT {1} {2})
      (by decide) (by decide)

lemma var_value_eq_one (t : TObject) (i : ℤ) : t.var_value i = 1 ↔ i ∈ t.ones := by
  unfold TObject.var_value
  split_ifs with h1 h2 <;> simp_all

lemma var_value_eq_zero (t : TObject) (i : ℤ) (h : t.inv) :
    t.var_value i = 0 ↔ i ∈ t.zeros := by
  unfold TObject.var_value
  split_ifs with h1 h2 <;> simp_all
  exact fun h2 => not_mem_both h.1 i ⟨h1, h2⟩

lemma vals_all_one (A : List TObject) (i : ℤ) :
    ((A.filter (fun t => !t.is_trivial)).map (fun t => t.var_value i)).all (· = 1) = true ↔
    ∀ t ∈ A, t.is_trivial = false → i ∈ t.ones := by
  simp only [List.all_eq_true, List.mem_map, List.mem_filter, Bool.not_eq_true',
    decide_eq_true_eq, forall_exists_index, and_imp]
  constructor
  · intro h t ht htr
    exact (var_value_eq_one t i).mp (h _ t ht htr rfl)
  · rintro h v t ht htr rfl
    exact (var_value_eq_one t i).mpr (h t ht htr)

lemma vals_all_zero (A : List TObject) (i : ℤ) (hA : ∀ t ∈ A, t.inv) :
    ((A.filter (fun t => !t.is_trivial)).map (fun t => t.var_value i)).all (· = 0) = true ↔
    ∀ t ∈ A, t.is_trivial = false → i ∈ t.zeros := by
  simp only [List.all_eq_true, List.mem_map, List.mem_filter, Bool.not_eq_true',
    decide_eq_true_eq, forall_exists_index, and_imp]
  constructor
  · intro h t ht htr
    exact (var_value_eq_zero t i (hA t ht)).mp (h _ t ht htr rfl)
  · rintro h v t ht htr rfl
    exact (var_value_eq_zero t i (hA t ht)).mpr (h t ht htr)

lemma vals_not_both (A : List TObject) (i : ℤ) (hA : ∀ t ∈ A, t.inv)
    (hc : svIsContradiction A = false) (htr : svIsTrivial A = false)
    (h1 : ∀ t ∈ A, t.is_trivial = false → i ∈ t.ones) :
    ¬ ∀ t ∈ A, t.is_trivial = false → i ∈ t.zeros := by
  intro h0
  have hex : ∃ t ∈ A, t.is_null = false := by
    by_contra hno
    push_neg at hno
    have hall : svIsContradiction A = true := by
      unfold svIsContradiction
      simp only [List.all_eq_true]
      intro t ht
      simpa [Bool.ne_false_iff] using hno t ht
    simp [hall] at hc
  obtain ⟨t, ht, htn⟩ := hex
  have htt : t.is_trivial = false := by
    by_contra hcon
    simp only [Bool.not_eq_false] at hcon
    have hany : svIsTrivial A = true := by
      unfold svIsTrivial
      simp only [List.any_eq_true]
      exact ⟨t, ht, hcon⟩
    simp [hany] at htr
  exact not_mem_both (hA t ht).1 i ⟨h1 t ht htt, h0 t ht htt⟩

/-- Claim C3: `A.var_value(i)` errors exactly when `A` is a contradiction
(no non-null cube); otherwise it returns 1 when no trivial cube is present
and every non-trivial cube fixes `i` to 1, returns 0 symmetrically for 0,
and returns −1 in every remaining case (a present trivial cube forces −1). -/
theorem claim_C3_sv_var_value (A : List TObject) (i : ℤ) (hA : ∀ t ∈ A, t.inv) :
    (svVarValue A i = none ↔ svIsContradiction A = true) ∧
    (svVarValue A i = some 1 ↔ svIsContradiction A = false ∧ svIsTrivial A = false ∧
      ∀ t ∈ A, t.is_trivial = false → i ∈ t.ones) ∧
    (svVarValue A i = some 0 ↔ svIsContradiction A = false ∧ svIsTrivial A = false ∧
      ∀ t ∈ A, t.is_trivial = false → i ∈ t.zeros) ∧
    (svVarValue A i = some (-1) ↔ svIsContradiction A = false ∧
      ¬(svIsTrivial A = false ∧ ∀ t ∈ A, t.is_trivial = false → i ∈ t.ones) ∧
      ¬(svIsTrivial A = false ∧ ∀ t ∈ A, t.is_trivial = false → i ∈ t.zeros)) := by
  unfold svVarValue
  by_cases hc : svIsContradiction A = true
  · rw [if_pos hc]
    refine ⟨iff_of_true rfl hc, ?_, ?_, ?_⟩ <;>
      exact iff_of_false (by simp) (fun h => by simp [hc] at h)
  · simp only [Bool.not_eq_true] at hc
    rw [if_neg (by simp [hc])]
    by_cases htr : svIsTrivial A = true
    · rw [if_pos htr]
      refine ⟨iff_of_false (by simp) (by simp [hc]), ?_, ?_, ?_⟩
      · exact iff_of_false (by simp) (fun h => by simp [htr] at h)
      · exact iff_of_false (by simp) (fun h => by simp [htr] at h)
      · exact iff_of_true rfl
          ⟨hc, fun h => by simp [htr] at h, fun h => by simp [htr] at h⟩
    · simp only [Bool.not_eq_true] at htr
      rw [if_neg (by simp [htr])]
      by_cases h1 : ((A.filter (fun t => !t.is_trivial)).map
          (fun t => t.var_value i)).all (· = 1) = true
      · have hcl := (vals_all_one A i).mp h1
        have hnz := vals_not_both A i hA hc htr hcl
        rw [if_pos h1]
        exact ⟨iff_of_false (by simp) (by simp [hc]),
          iff_of_true rfl ⟨hc, htr, hcl⟩,
          iff_of_false (by simp) (fun h => hnz h.2.2),
          iff_of_false (by simp) (fun h => h.2.1 ⟨htr, hcl⟩)⟩
      · rw [if_neg h1]
        have hn1 : ¬ ∀ t ∈ A, t.is_trivial = false → i ∈ t.ones :=
          fun h => h1 ((vals_all_one A i).mpr h)
        by_cases h0 : ((A.filter (fun t => !t.is_trivial)).map
            (fun t => t.var_value i)).all (· = 0) = true
        · have hz := (vals_all_zero A i hA).mp h0
          rw [if_pos h0]
          exact ⟨iff_of_false (by simp) (by simp [hc]),
            iff_of_false (by simp) (fun h => hn1 h.2.2),
            iff_of_true rfl ⟨hc, htr, hz⟩,
            iff_of_false (by simp) (fun h => h.2.2 ⟨htr, hz⟩)⟩
        · rw [if_neg h0]
          have hn0 : ¬ ∀ t ∈ A, t.is_trivial = false → i ∈ t.zeros :=
            fun h => h0 ((vals_all_zero A i hA).mpr h)
          exact ⟨iff_of_false (by simp) (by simp [hc]),
            iff_of_false (by simp) (fun h => hn1 h.2.2),
            iff_of_false (by simp) (fun h => hn0 h.2.2),
            iff_of_true rfl ⟨hc, fun h => hn1 h.2, fun h => hn0 h.2⟩⟩

/-- Witness for C3 at the state vector with cubes `1 1 -` and `1 - 0`. -/
theorem claim_C3_sv_var_value_witness :
    svVarValue [mkT {1, 2} ∅, mkT {1} {3}] 1 = some 1 ∧
    svVarValue [mkT {1, 2} ∅, mkT {1} {3}] 2 = some (-1) := by
  have h := claim_C3_sv_var_value [mkT {1, 2} ∅, mkT {1} {3}] 1 (by decide)
  have h2 := claim_C3_sv_var_value [mkT {1, 2} ∅, mkT {1} {3}] 2 (by decide)
  exact ⟨h.2.1.mpr (by decide), h2.2.2.2.mpr (by decide)⟩

lemma specPartners_take (score : ℕ → ℚ) (quota m : ℕ) (cand : List ℕ)
    (h : quota ≤ m) :
    specPartners score quota (cand.take m) = specPartners score quota cand := by
  induction cand generalizing quota m with
  | nil => simp [specPartners]
  | cons idx rest ih =>
    cases m with
    | zero =>
      have hq : quota = 0 := Nat.le_zero.mp h
      simp [hq, specPartners]
    | succ m' =>
      simp only [List.take_succ_cons, specPartners]
      by_cases hq : quota = 0
      · simp [hq]
      · rw [if_neg hq, if_neg hq]
        by_cases hz : score idx = 0
        · rw [if_pos hz, if_pos hz]
        · rw [if_neg hz, if_neg hz, ih (quota - 1) m' (by omega)]

lemma specPartners_zero (score : ℕ → ℚ) (cand : List ℕ) :
    specPartners score 0 cand = [] := by
  cases cand <;> simp [specPartners]

lemma partnerLoop_eq (score : ℕ → ℚ) (maxC : ℕ) :
    ∀ (cand acc : List ℕ), 1 ≤ acc.length → acc.length < maxC →
    partnerLoop score maxC acc cand =
      acc ++ specPartners score (maxC - acc.length) cand := by
  intro cand
  induction cand with
  | nil =>
    intro acc h1 h2
    simp [partnerLoop, specPartners]
  | cons idx rest ih =>
    intro acc h1 h2
    simp only [partnerLoop]
    by_cases hz : score idx = 0
    · rw [if_pos ⟨hz, by simp; omega⟩]
      simp only [specPartners]
      rw [if_neg (by omega : ¬ maxC - acc.length = 0), if_pos hz]
    · rw [if_neg (fun hcon => hz hcon.1)]
      by_cases hfull : (acc ++ [idx]).length = maxC
      · rw [if_pos hfull]
        simp only [specPartners]
        rw [if_neg (by omega : ¬ maxC - acc.length = 0), if_neg hz]
        have hq : maxC - acc.length - 1 = 0 := by
          simp only [List.length_append, List.length_singleton] at hfull
          omega
        rw [hq, specPartners_zero]
      · rw [if_neg hfull]
        rw [ih (acc ++ [idx]) (by simp) (by simp at hfull ⊢; omega)]
        simp only [specPartners]
        rw [if_neg (by omega : ¬ maxC - acc.length = 0), if_neg hz]
        have hlen : maxC - (acc ++ [idx]).length = maxC - acc.length - 1 := by
          simp only [List.length_append, List.length_singleton]
          omega
        rw [hlen]
        simp

lemma scoresTable_eq_specJaccard (U I : List (List ℕ)) :
    scoresTable U I = specJaccard U I := by
  funext i j
  unfold scoresTable specJaccard
  by_cases hij : i = j
  · simp [hij]
  · rw [if_neg hij]
    by_cases hu : matGet U i j = 0
    · rw [if_pos (Or.inr hu), hu]
      simp
    · rw [if_neg (by tauto)]

/-- Claim C5 is wrong on the code: when every previous index is removed and
one pivot set appended, the bottom-right diagonal entry is only assigned
inside the `for k in range(n-1)` loop, which does not run for a 1×1 result,
so the update returns `[[0]]` where the from-scratch calculation (and the
repository's own test `test_update_ps_unions_intersections_no_remaining`)
gives `[[3]]`. -/
theorem claim_C5_update_matrices_bug :
    update_ps_unions_intersections [[2, 1], [1, 2]] [[2, 1], [1, 2]] [1, 0]
      [{1, 2, 3}] = ([[0]], [[0]]) ∧
    calc_ps_unions_intersections [{1, 2, 3}] = ([[3]], [[3]]) := by decide

/-- Claim C4: on the union/intersection matrices of a list of pivot sets and
for `max_cluster_size ≥ 2`, `find_next_cluster` computes exactly the
specification's description: all indices when `n ≤ max_cluster_size`, else
`k*` (the row maximizing the squared Jaccard row maximum, ties to the lowest
index) followed by up to `max_cluster_size − 1` partners in descending
`J[k*,·]` order, stopping at a zero-Jaccard candidate. -/
theorem claim_C4_find_next_cluster (ps : List (Finset ℤ))
    (U I : List (List ℕ)) (maxC : ℕ)
    (_hU : U = calcUnions ps) (_hI : I = calcIntersections ps) (h2 : 2 ≤ maxC) :
    find_next_cluster ps U I maxC = findNextClusterSpec ps U I maxC := by
  unfold find_next_cluster findNextClusterSpec
  simp only [scoresTable_eq_specJaccard]
  by_cases hn : ps.length ≤ maxC
  · rw [if_pos hn, if_pos hn]
  · rw [if_neg hn, if_neg hn]
    rw [partnerLoop_eq _ _ _ _ (by simp) (by simp; omega)]
    rw [specPartners_take _ _ _ _ (by omega)]
    simp

/-- Witness for C4 at the three pivot sets of the repository's own test. -/
theorem claim_C4_find_next_cluster_witness :
    find_next_cluster [{1,2,3}, {3,4,5}, {1,4,5}]
      (calcUnions [{1,2,3}, {3,4,5}, {1,4,5}])
      (calcIntersections [{1,2,3}, {3,4,5}, {1,4,5}]) 2 =
    findNextClusterSpec [{1,2,3}, {3,4,5}, {1,4,5}]
      (calcUnions [{1,2,3}, {3,4,5}, {1,4,5}])
      (calcIntersections [{1,2,3}, {3,4,5}, {1,4,5}]) 2 :=
  claim_C4_find_next_cluster _ _ _ _ rfl rfl (by decide)

lemma binOpMap_eq_specBinary (o : String) (i j : ℤ) :
    binOpMap o i j = specBinaryCubes o i j := by
  unfold binOpMap specBinaryCubes
  by_cases h1 : o = "&&"
  · subst h1; rfl
  by_cases h2 : o = "||"
  · subst h2; rfl
  by_cases h3 : o = "^^"
  · subst h3; rfl
  by_cases h4 : o = "=>"
  · subst h4; rfl
  by_cases h5 : o = "<="
  · subst h5; rfl
  by_cases h6 : o = "="
  · subst h6; rfl
  rw [if_neg h1, if_neg h2, if_neg h3, if_neg h4, if_neg h5, if_neg h6]
  split <;> simp_all

lemma triplet_eq_specTriplet (o : String) (i1 i2 i3 : ℤ) :
    create_triplet_sv o i1 i2 i3 = specTripletCubes o i1 i2 i3 := by
  unfold create_triplet_sv specTripletCubes
  by_cases h1 : o = "&&"
  · subst h1; rfl
  by_cases h2 : o = "||"
  · subst h2; rfl
  by_cases h3 : o = "^^"
  · subst h3; rfl
  by_cases h4 : o = "=>"
  · subst h4; rfl
  by_cases h5 : o = "<="
  · subst h5; rfl
  by_cases h6 : o = "="
  · subst h6; rfl
  rw [if_neg h1, if_neg h2, if_neg h3, if_neg h4, if_neg h5, if_neg h6]
  split <;> simp_all

/-- Claim C1: on every simple binary rule the converter produces exactly the
specification's binary code table at the two looked-up indices, and on every
simple triplet rule exactly the specification's triplet table at the three
indices, in both cases followed by `negate_variables` for each variable
occurrence carrying a negation flag; a swapped equivalence `(a op b) = x`
yields the same state vector as `x = (a op b)`. -/
theorem claim_C1_converter_code_tables (vm : String → ℤ) (o : String)
    (sn ln rn : Bool) (snm lnm rnm : String) :
    (visitOp o (.var ln lnm) (.var rn rnm) vm =
      (specBinaryCubes o (vm lnm) (vm rnm)).map (fun sv => svNegate sv
        ((if ln then [vm lnm] else []) ++ (if rn then [vm rnm] else [])))) ∧
    (visitOp eqOpStr (.var sn snm) (.op o (.var ln lnm) (.var rn rnm)) vm =
      (specTripletCubes o (vm snm) (vm lnm) (vm rnm)).map (fun sv => svNegate sv
        ((if sn then [vm snm] else []) ++ (if ln then [vm lnm] else []) ++
          (if rn then [vm rnm] else [])))) ∧
    (visitOp eqOpStr (.op o (.var ln lnm) (.var rn rnm)) (.var sn snm) vm =
      visitOp eqOpStr (.var sn snm) (.op o (.var ln lnm) (.var rn rnm)) vm) := by
  refine ⟨?_, ?_, ?_⟩
  · simp only [visitOp, binOpMap_eq_specBinary]
  · simp only [visitOp, eqOpStr, triplet_eq_specTriplet, if_pos]
  · simp only [visitOp, eqOpStr, if_pos]

lemma specVarsGo_counter_le (xs : List (Bool × String)) :
    ∀ (seen : List String) (k : ℕ), k ≤ (specVarsGo xs seen k).2.2.1 := by
  induction xs with
  | nil => intro seen k; simp [specVarsGo]
  | cons p rest ih =>
    intro seen k
    obtain ⟨n, s⟩ := p
    simp only [specVarsGo]
    by_cases hs : s ∈ seen
    · simp only [if_pos hs]
      exact Nat.le_trans (Nat.le_succ k) (ih seen (k + 1))
    · simp only [if_neg hs]
      exact ih (seen ++ [s]) k

lemma specVarsGo_append (xs ys : List (Bool × String)) :
    ∀ (seen : List String) (k : ℕ),
    specVarsGo (xs ++ ys) seen k =
      ((specVarsGo xs seen k).1 ++
        (specVarsGo ys (specVarsGo xs seen k).2.2.2 (specVarsGo xs seen k).2.2.1).1,
       (specVarsGo xs seen k).2.1 ++
        (specVarsGo ys (specVarsGo xs seen k).2.2.2 (specVarsGo xs seen k).2.2.1).2.1,
       (specVarsGo ys (specVarsGo xs seen k).2.2.2 (specVarsGo xs seen k).2.2.1).2.2.1,
       (specVarsGo ys (specVarsGo xs seen k).2.2.2 (specVarsGo xs seen k).2.2.1).2.2.2) := by
  induction xs with
  | nil => intro seen k; simp [specVarsGo]
  | cons p rest ih =>
    intro seen k
    obtain ⟨n, s⟩ := p
    simp only [List.cons_append, specVarsGo]
    by_cases hs : s ∈ seen
    · simp only [if_pos hs, List.append_eq, ih, List.cons_append]
    · simp only [if_neg hs, List.append_eq, ih, List.cons_append]

lemma aux_range_append (k k2 k3 : ℕ) (h1 : k ≤ k2) (h2 : k2 ≤ k3) :
    (List.range (k2 - k)).map (fun m => auxEntry (k + m)) ++
      (List.range (k3 - k2)).map (fun m => auxEntry (k2 + m)) =
      (List.range (k3 - k)).map (fun m => auxEntry (k + m)) := by
  have hsplit : k3 - k = (k2 - k) + (k3 - k2) := by omega
  rw [hsplit, List.range_add, List.map_append, List.map_map]
  congr 1
  apply List.map_congr_left
  intro m _
  have harith : k + (k2 - k + m) = k2 + m := by omega
  simp only [Function.comp_apply, harith]

lemma replaceDups_spec (ast : Ast) : ∀ st : RdState,
    astShape (replaceDups ast st).1 = astShape ast ∧
    astVars (replaceDups ast st).1 =
      (specVarsGo (astVars ast) st.seen st.counter).1 ∧
    (replaceDups ast st).2.eqs =
      st.eqs ++ ((specVarsGo (astVars ast) st.seen st.counter).2.1).map mkEqAst ∧
    (replaceDups ast st).2.counter =
      (specVarsGo (astVars ast) st.seen st.counter).2.2.1 ∧
    (replaceDups ast st).2.auxMap = st.auxMap ++
      (List.range ((specVarsGo (astVars ast) st.seen st.counter).2.2.1
        - st.counter)).map (fun m => auxEntry (st.counter + m)) ∧
    (replaceDups ast st).2.seen =
      (specVarsGo (astVars ast) st.seen st.counter).2.2.2 := by
  induction ast with
  | var neg name =>
    intro st
    simp only [replaceDups, astVars, specVarsGo]
    by_cases hs : name ∈ st.seen
    · simp only [if_pos hs]
      refine ⟨?_, ?_, ?_, ?_, ?_, ?_⟩ <;> try first | rfl | trivial
      have hr : st.counter + 1 - st.counter = 1 := by omega
      have hrg : List.range 1 = [0] := rfl
      rw [hr, hrg]
      simp only [List.map_cons, List.map_nil, auxEntry, Nat.add_zero]
      norm_cast
    · simp only [if_neg hs]
      refine ⟨?_, ?_, ?_, ?_, ?_, ?_⟩ <;> first | rfl | trivial | simp
  | op o l r ihl ihr =>
    intro st
    obtain ⟨L1, L2, L3, L4, L5, L6⟩ := ihl st
    have IHr := ihr (replaceDups l st).2
    rw [L4, L6] at IHr
    obtain ⟨R1, R2, R3, R4, R5, R6⟩ := IHr
    have hle1 : st.counter ≤ (specVarsGo (astVars l) st.seen st.counter).2.2.1 :=
      specVarsGo_counter_le _ _ _
    have hle2 : (specVarsGo (astVars l) st.seen st.counter).2.2.1 ≤
        (specVarsGo (astVars r)
          (specVarsGo (astVars l) st.seen st.counter).2.2.2
          (specVarsGo (astVars l) st.seen st.counter).2.2.1).2.2.1 :=
      specVarsGo_counter_le _ _ _
    simp only [replaceDups, astVars, astShape]
    rw [specVarsGo_append]
    refine ⟨?_, ?_, ?_, R4, ?_, R6⟩
    · rw [L1, R1]
    · rw [L2, R2]
    · rw [R3, L3, List.map_append, List.append_assoc]
    · rw [R5, L5, List.append_assoc,
        aux_range_append st.counter _ _ hle1 hle2]

/-- Claim C6: the repeated-variable pass keeps the first occurrence of each
variable name, replaces every later occurrence by the next fresh auxiliary
variable with the same negation flag, emits the un-negated equality AST
`v = aux_k` for each replacement, and assigns the auxiliaries the negative
indices −1, −2, … in order (hence disjoint from the positive user indices). -/
theorem claim_C6_repeated_variable_elimination (ast : Ast) :
    astShape (handleRepeated ast).1 = astShape ast ∧
    astVars (handleRepeated ast).1 = (specVarsGo (astVars ast) [] 0).1 ∧
    (handleRepeated ast).2.eqs =
      ((specVarsGo (astVars ast) [] 0).2.1).map mkEqAst ∧
    (handleRepeated ast).2.counter = (specVarsGo (astVars ast) [] 0).2.2.1 ∧
    (handleRepeated ast).2.auxMap =
      (List.range (specVarsGo (astVars ast) [] 0).2.2.1).map auxEntry ∧
    (∀ p ∈ (handleRepeated ast).2.auxMap, p.2 < 0) := by
  obtain ⟨h1, h2, h3, h4, h5, h6⟩ := replaceDups_spec ast ⟨[], 0, [], []⟩
  have h5' : (handleRepeated ast).2.auxMap =
      (List.range (specVarsGo (astVars ast) [] 0).2.2.1).map auxEntry := by
    rw [handleRepeated, h5]
    simp
  refine ⟨h1, h2, by simpa using h3, h4, h5', ?_⟩
  intro p hp
  rw [h5'] at hp
  obtain ⟨m, _, hm⟩ := List.mem_map.mp hp
  rw [← hm]
  simp only [auxEntry]
  omega

/-- Claim C8: appending a trivial state vector to the compiler input leaves
the resulting valid set unchanged, and appending a contradiction (the empty
state vector) makes the result a contradiction. -/
theorem claim_C8_scheduler_trivial_and_contradiction (svs : List (List TObject)) :
    scheduler (svs ++ [[TObject.trivT]]) = scheduler svs ∧
    svIsContradiction (scheduler (svs ++ [[]])) = true := by
  constructor
  · unfold scheduler
    rw [List.filter_append]
    have h : List.filter (fun s => !(svIsTrivial s)) [[TObject.trivT]] = [] := by
      simp [svIsTrivial, TObject.is_trivial, TObject.trivT]
    rw [h, List.append_nil]
  · unfold scheduler
    rw [List.filter_append]
    have h : List.filter (fun s => !(svIsTrivial s)) [[]] = [[]] := by
      simp [svIsTrivial]
    rw [h]
    have h2 : (List.filter (fun s => !(svIsTrivial s)) svs ++ [[]]).any
        (fun s => svIsContradiction s) = true := by
      simp [svIsContradiction]
    rw [if_pos h2]
    rfl

lemma deriv_word_ne_nil {vd : String → Bool} {k : ℕ} {w : List Tok} {a : Ast}
    (h : Deriv vd k w a) : w ≠ [] := by
  induction h with
  | ident s hs => simp
  | paren w a _ _ => simp
  | bang w n s _ _ => simp
  | up k w a _ ih => exact ih
  | bin k t w1 w2 a b hct _ _ ih1 ih2 => simp

lemma stops_mono {k k' : ℕ} {ts : List Tok} (hk : k' ≤ k) (h : Stops k ts) :
    Stops k' ts := by
  cases ts with
  | nil => trivial
  | cons t rest =>
    cases h with
    | inl h0 => exact Or.inl h0
    | inr hgt => exact Or.inr (lt_of_le_of_lt hk hgt)

lemma chainAst_append (a0 : Ast) (ps : List (Tok × List Tok × Ast))
    (q : Tok × List Tok × Ast) :
    chainAst a0 (ps ++ [q]) = .op (tokOpStr q.1) (chainAst a0 ps) q.2.2 := by
  simp [chainAst, List.foldl_append]

lemma chainWord_append (ps : List (Tok × List Tok × Ast))
    (q : Tok × List Tok × Ast) :
    chainWord (ps ++ [q]) = chainWord ps ++ (q.1 :: q.2.1) := by
  simp [chainWord]

/-- Every level-`(k+2)` derivation decomposes as a first level-`(k+1)`
operand followed by a list of operator/operand continuations, with the AST
the left fold of the continuations — the shape `transform_binary_op`
consumes. -/
lemma deriv_chain_decomp {vd : String → Bool} {n : ℕ} {w : List Tok} {a : Ast}
    (h : Deriv vd n w a) : ∀ k : ℕ, n = k + 2 →
    ∃ (w0 : List Tok) (a0 : Ast) (ps : List (Tok × List Tok × Ast)),
      Deriv vd (k + 1) w0 a0 ∧
      (∀ p ∈ ps, contLevel p.1 = k + 2 ∧ Deriv vd (k + 1) p.2.1 p.2.2) ∧
      w = w0 ++ chainWord ps ∧ a = chainAst a0 ps := by
  induction h with
  | ident s hs => intro k hk; omega
  | paren w a _ _ => intro k hk; omega
  | bang w n s _ _ => intro k hk; omega
  | up k' w a hd _ =>
    intro k hk
    have hkk : k' = k := by omega
    subst hkk
    exact ⟨w, a, [], hd, by simp, by simp [chainWord], by simp [chainAst]⟩
  | bin k' t w1 w2 a b hct h1 h2 ih1 _ =>
    intro k hk
    have hkk : k' = k := by omega
    subst hkk
    obtain ⟨w0, a0, ps, hd0, hps, hw, ha⟩ := ih1 _ rfl
    refine ⟨w0, a0, ps ++ [(t, w2, b)], hd0, ?_, ?_, ?_⟩
    · intro p hp
      rcases List.mem_append.mp hp with hp | hp
      · exact hps p hp
      · simp only [List.mem_singleton] at hp
        subst hp
        exact ⟨hct, h2⟩
    · rw [hw, chainWord_append, List.append_assoc]
    · rw [ha, chainAst_append]

/-- Soundness of the parser: whatever `parseF` accepts at level `k` is a
word of the grammar at level `k` (and the continuation mode folds further
operators onto any derivable accumulator). -/
lemma parseF_sound (vd : String → Bool) :
    ∀ fuel : ℕ,
      (∀ k ts a rest, 1 ≤ k →
        parseF vd fuel (.lev k) ts = .ok (a, rest) →
        ∃ w, ts = w ++ rest ∧ Deriv vd k w a) ∧
      (∀ k acc ts a rest, 2 ≤ k →
        parseF vd fuel (.loop k acc) ts = .ok (a, rest) →
        ∃ w, ts = w ++ rest ∧
          ∀ w0, Deriv vd k w0 acc → Deriv vd k (w0 ++ w) a) := by
  intro fuel
  induction fuel with
  | zero =>
    constructor
    · intro k ts a rest _ h
      simp [parseF] at h
    · intro k acc ts a rest _ h
      simp [parseF] at h
  | succ f ih =>
    obtain ⟨ihLev, ihLoop⟩ := ih
    constructor
    · intro k ts a rest hk h
      rcases k with _ | _ | j
      · omega
      · cases ts with
        | nil => simp [parseF] at h
        | cons t ts2 =>
          cases t with
          | ident s =>
            simp only [parseF] at h
            split at h
            · rename_i hvd
              simp only [Except.ok.injEq, Prod.mk.injEq] at h
              obtain ⟨h3, h4⟩ := h
              subst h3
              subst h4
              exact ⟨[.ident s], rfl, Deriv.ident s hvd⟩
            · simp at h
          | lparen =>
            simp only [parseF] at h
            split at h
            · rename_i a2 rest2 heq
              simp only [Except.ok.injEq, Prod.mk.injEq] at h
              obtain ⟨h3, h4⟩ := h
              subst h3
              subst h4
              obtain ⟨w, hts, hd⟩ :=
                ihLev 5 ts2 a2 (.rparen :: rest2) (by omega) heq
              refine ⟨.lparen :: (w ++ [.rparen]), ?_, Deriv.paren w a2 hd⟩
              rw [hts]
              simp
            · simp at h
            · simp at h
          | bang =>
            simp only [parseF] at h
            split at h
            · rename_i n s rest2 heq
              simp only [Except.ok.injEq, Prod.mk.injEq] at h
              obtain ⟨h3, h4⟩ := h
              subst h3
              subst h4
              obtain ⟨w, hts, hd⟩ := ihLev 1 ts2 (.var n s) rest2 (by omega) heq
              refine ⟨.bang :: w, ?_, Deriv.bang w n s hd⟩
              rw [hts]
              simp
            · simp at h
            · simp at h
          | rparen => simp [parseF] at h
          | andT => simp [parseF] at h
          | orT => simp [parseF] at h
          | xorT => simp [parseF] at h
          | impT => simp [parseF] at h
          | revT => simp [parseF] at h
          | eqT => simp [parseF] at h
          | iffT => simp [parseF] at h
      · simp only [parseF] at h
        split at h
        · rename_i a1 rest1 heq
          obtain ⟨w1, hts, hd1⟩ := ihLev (j + 1) ts a1 rest1 (by omega) heq
          obtain ⟨w2, hrest1, hfold⟩ := ihLoop (j + 2) a1 rest1 a rest (by omega) h
          refine ⟨w1 ++ w2, ?_, hfold w1 (Deriv.up j w1 a1 hd1)⟩
          rw [hts, hrest1, List.append_assoc]
        · simp at h
    · intro k acc ts a rest hk h
      cases ts with
      | nil =>
        simp only [parseF] at h
        simp only [Except.ok.injEq, Prod.mk.injEq] at h
        obtain ⟨h3, h4⟩ := h
        subst h3
        subst h4
        refine ⟨[], rfl, ?_⟩
        intro w0 hacc
        rw [List.append_nil]
        exact hacc
      | cons t ts2 =>
        simp only [parseF] at h
        split at h
        · rename_i hct
          split at h
          · rename_i b rest2 heq
            obtain ⟨wb, hts2, hdb⟩ := ihLev (k - 1) ts2 b rest2 (by omega) heq
            obtain ⟨w2, hrest2, hfold2⟩ :=
              ihLoop k (.op (tokOpStr t) acc b) rest2 a rest hk h
            refine ⟨t :: wb ++ w2, ?_, ?_⟩
            · rw [hts2, hrest2]
              simp
            · intro w0 hacc
              obtain ⟨j, hj⟩ : ∃ j, k = j + 2 := ⟨k - 2, by omega⟩
              subst hj
              have hdb1 : Deriv vd (j + 1) wb b := by
                have he : j + 2 - 1 = j + 1 := by omega
                rwa [he] at hdb
              have hbin : Deriv vd (j + 2) (w0 ++ t :: wb)
                  (.op (tokOpStr t) acc b) :=
                Deriv.bin j t w0 wb acc b hct hacc hdb1
              have hres := hfold2 (w0 ++ t :: wb) hbin
              rwa [List.append_assoc] at hres
          · simp at h
        · rename_i hct
          simp only [Except.ok.injEq, Prod.mk.injEq] at h
          obtain ⟨h3, h4⟩ := h
          subst h3
          subst h4
          refine ⟨[], rfl, ?_⟩
          intro w0 hacc
          rw [List.append_nil]
          exact hacc

lemma contLevel_le (t : Tok) : contLevel t ≤ 5 := by
  cases t <;> simp [contLevel]

lemma parseF_lev1_ident (vd : String → Bool) (f : ℕ) (s : String) (ts : List Tok) :
    parseF vd (f + 1) (.lev 1) (.ident s :: ts) =
      if vd s then .ok (.var false s, ts) else .error "undefined variable" := rfl

lemma parseF_lev1_lparen (vd : String → Bool) (f : ℕ) (ts : List Tok) :
    parseF vd (f + 1) (.lev 1) (.lparen :: ts) =
      match parseF vd f (.lev 5) ts with
      | .ok (a, .rparen :: rest2) => .ok (a, rest2)
      | .ok (_, _) => .error "mismatched brackets"
      | .error e => .error e := rfl

lemma parseF_lev1_bang (vd : String → Bool) (f : ℕ) (ts : List Tok) :
    parseF vd (f + 1) (.lev 1) (.bang :: ts) =
      match parseF vd f (.lev 1) ts with
      | .ok (.var _ s, rest2) => .ok (.var true s, rest2)
      | .ok (_, _) => .error "negation of expressions in parentheses is not allowed"
      | .error e => .error e := rfl

lemma parseF_lev_step (vd : String → Bool) (f k : ℕ) (ts : List Tok) :
    parseF vd (f + 1) (.lev (k + 2)) ts =
      match parseF vd f (.lev (k + 1)) ts with
      | .ok (a, rest) => parseF vd f (.loop (k + 2) a) rest
      | .error e => .error e := rfl

lemma parseF_loop_nil (vd : String → Bool) (f k : ℕ) (acc : Ast) :
    parseF vd (f + 1) (.loop k acc) [] = .ok (acc, []) := rfl

lemma parseF_loop_cons (vd : String → Bool) (f k : ℕ) (acc : Ast) (t : Tok)
    (ts : List Tok) :
    parseF vd (f + 1) (.loop k acc) (t :: ts) =
      if contLevel t = k then
        match parseF vd f (.lev (k - 1)) ts with
        | .ok (b, rest2) => parseF vd f (.loop k (.op (tokOpStr t) acc b)) rest2
        | .error e => .error e
      else .ok (acc, t :: ts) := rfl

lemma chainWord_cons (q : Tok × List Tok × Ast) (ps : List (Tok × List Tok × Ast)) :
    chainWord (q :: ps) = q.1 :: (q.2.1 ++ chainWord ps) := by
  simp [chainWord]

lemma chainWord_length_ge {ps : List (Tok × List Tok × Ast)}
    {p : Tok × List Tok × Ast} (hp : p ∈ ps) :
    p.2.1.length + 1 ≤ (chainWord ps).length := by
  induction ps with
  | nil => simp at hp
  | cons q ps' ih =>
    rw [chainWord_cons]
    rcases List.mem_cons.mp hp with hp | hp
    · subst hp
      simp only [List.length_cons, List.length_append]
      omega
    · have := ih hp
      simp only [List.length_cons, List.length_append]
      omega

/-- Completeness of the parser: every word of the grammar at level `k`,
followed by a stopping continuation, is accepted by `parseF` with the
derived AST, given enough fuel. -/
lemma parseF_complete (vd : String → Bool) :
    ∀ N k w a rest fuel, 8 * w.length + k ≤ N →
      Deriv vd k w a → Stops k rest → 8 * w.length + k ≤ fuel →
      parseF vd fuel (.lev k) (w ++ rest) = .ok (a, rest) := by
  intro N
  induction N using Nat.strong_induction_on with
  | _ N ih =>
    intro k w a rest fuel hN hd hstop hfuel
    rcases k with _ | _ | j
    · cases hd
    · cases hd with
      | ident s hs =>
        obtain ⟨f, rfl⟩ : ∃ f, fuel = f + 1 := ⟨fuel - 1, by omega⟩
        rw [List.singleton_append, parseF_lev1_ident, if_pos hs]
      | paren w' a2 hd' =>
        simp only [List.length_cons, List.length_append,
          List.length_singleton] at hN hfuel
        obtain ⟨f, rfl⟩ : ∃ f, fuel = f + 1 := ⟨fuel - 1, by omega⟩
        have hstop5 : Stops 5 (.rparen :: rest) := Or.inl rfl
        have hin : parseF vd f (.lev 5) (w' ++ (.rparen :: rest)) =
            .ok (a, .rparen :: rest) :=
          ih (8 * w'.length + 5) (by omega) 5 w' a (.rparen :: rest) f
            (by omega) hd' hstop5 (by omega)
        rw [List.cons_append, parseF_lev1_lparen, List.append_assoc,
          List.singleton_append, hin]
      | bang w' n s hd' =>
        simp only [List.length_cons] at hN hfuel
        obtain ⟨f, rfl⟩ : ∃ f, fuel = f + 1 := ⟨fuel - 1, by omega⟩
        have hin : parseF vd f (.lev 1) (w' ++ rest) = .ok (.var n s, rest) :=
          ih (8 * w'.length + 1) (by omega) 1 w' (.var n s) rest f
            (by omega) hd' hstop (by omega)
        rw [List.cons_append, parseF_lev1_bang, hin]
    · obtain ⟨w0, a0, ps, hd0, hps, hw, ha⟩ := deriv_chain_decomp hd j rfl
      subst hw
      subst ha
      simp only [List.length_append] at hN hfuel
      obtain ⟨f, rfl⟩ : ∃ f, fuel = f + 1 := ⟨fuel - 1, by omega⟩
      have hstopChain : ∀ ps' : List (Tok × List Tok × Ast),
          (∀ p ∈ ps', contLevel p.1 = j + 2) →
          Stops (j + 1) (chainWord ps' ++ rest) := by
        intro ps' hcs
        cases ps' with
        | nil =>
          rw [chainWord]
          simp only [List.map_nil, List.flatten_nil, List.nil_append]
          exact stops_mono (by omega) hstop
        | cons q qs =>
          rw [chainWord_cons, List.cons_append]
          exact Or.inr (by rw [hcs q (List.mem_cons_self q qs)]; omega)
      have h0 : parseF vd f (.lev (j + 1)) (w0 ++ (chainWord ps ++ rest)) =
          .ok (a0, chainWord ps ++ rest) :=
        ih (8 * w0.length + (j + 1)) (by omega) (j + 1) w0 a0
          (chainWord ps ++ rest) f (by omega) hd0
          (hstopChain ps (fun p hp => (hps p hp).1)) (by omega)
      have hLoop : ∀ ps' f' acc,
          (∀ p ∈ ps', p ∈ ps) →
          8 * (chainWord ps').length + 1 ≤ f' →
          parseF vd f' (.loop (j + 2) acc) (chainWord ps' ++ rest) =
            .ok (chainAst acc ps', rest) := by
        intro ps'
        induction ps' with
        | nil =>
          intro f' acc _ hf'
          obtain ⟨f2, rfl⟩ : ∃ f2, f' = f2 + 1 := ⟨f' - 1, by omega⟩
          rw [chainWord]
          simp only [List.map_nil, List.flatten_nil, List.nil_append, chainAst,
            List.foldl_nil]
          cases rest with
          | nil => exact parseF_loop_nil vd f2 (j + 2) acc
          | cons t r =>
            rw [parseF_loop_cons]
            have hne : ¬ contLevel t = j + 2 := by
              rcases hstop with h0 | hgt
              · omega
              · omega
            rw [if_neg hne]
        | cons q qs ihq =>
          intro f' acc hmem hf'
          obtain ⟨t, w1, b⟩ := q
          obtain ⟨hct, hdb⟩ := hps (t, w1, b) (hmem _ (List.mem_cons_self _ qs))
          simp only at hct hdb
          have hsz : 8 * w1.length + (j + 2) < N := by
            have h1 := chainWord_length_ge (hmem _ (List.mem_cons_self (t, w1, b) qs))
            simp only at h1
            have hw0 := deriv_word_ne_nil hd0
            have hw0' : 1 ≤ w0.length := by
              cases w0 with
              | nil => exact absurd rfl hw0
              | cons x xs => simp
            omega
          rw [chainWord_cons] at hf' ⊢
          simp only [List.length_cons, List.length_append] at hf'
          obtain ⟨f2, rfl⟩ : ∃ f2, f' = f2 + 1 := ⟨f' - 1, by omega⟩
          have hj5 : j + 2 ≤ 5 := by
            have := contLevel_le t
            omega
          have hin : parseF vd f2 (.lev (j + 1)) (w1 ++ (chainWord qs ++ rest)) =
              .ok (b, chainWord qs ++ rest) :=
            ih (8 * w1.length + (j + 1)) (by omega) (j + 1) w1 b
              (chainWord qs ++ rest) f2 (by omega) hdb
              (hstopChain qs (fun p hp =>
                (hps p (hmem p (List.mem_cons_of_mem _ hp))).1))
              (by omega)
          rw [List.cons_append, parseF_loop_cons, if_pos hct]
          have hred : j + 2 - 1 = j + 1 := rfl
          rw [hred, List.append_assoc, hin]
          have hfold : chainAst acc ((t, w1, b) :: qs) =
              chainAst (.op (tokOpStr t) acc b) qs := by
            simp [chainAst]
          rw [hfold]
          exact ihq f2 (.op (tokOpStr t) acc b)
            (fun p hp => hmem p (List.mem_cons_of_mem _ hp)) (by omega)
      rw [List.append_assoc, parseF_lev_step, h0]
      exact hLoop ps f a0 (fun p hp => hp) (by omega)

/-- C9 (amended): `RuleParser.parse` fails — with the single
invalid-rule-syntax failure class, producing no AST — exactly when the
input is empty, contains an invalid character (tokenization fails), or its
token string is not derivable in the rule grammar; derivability builds in
the semantic checks of the transform actions, so the failure cases are
precisely: empty input, undefined identifier, mismatched brackets, invalid
character, trailing tokens after a complete expression, and `!` applied to
an operand that does not reduce to a (possibly negated) bare identifier.
On every other well-formed rule string the parser returns an AST.  The
original claim's unconditional error item for `!(...)` is refuted by the
companion counterexample: `!` of a parenthesized bare identifier
succeeds. -/
theorem claim_C9_parse_ok_iff_grammar_derivation
    (vd : String → Bool) (s : List Char) :
    (∃ a, parse vd s = .ok a) ↔
    (∃ ts a, tokenize s = .ok ts ∧ Deriv vd 5 ts a) := by
  constructor
  · rintro ⟨a, h⟩
    simp only [parse] at h
    split at h
    · simp at h
    · split at h
      · simp at h
      · rename_i ts htok
        split at h
        · rename_i a2 heq2
          obtain ⟨w, hts, hd⟩ :=
            (parseF_sound vd (8 * ts.length + 8)).1 5 ts a2 [] (by omega) heq2
          rw [List.append_nil] at hts
          exact ⟨ts, a2, htok, by rw [hts]; exact hd⟩
        · simp at h
        · simp at h
  · rintro ⟨ts, a, htok, hd⟩
    have hs0 : ¬ s = [] := by
      intro hs
      subst hs
      have hnil : tokenize ([] : List Char) = .ok [] := rfl
      rw [hnil] at htok
      injection htok with h2
      exact deriv_word_ne_nil hd h2.symm
    have hcompl : parseF vd (8 * ts.length + 8) (.lev 5) ts = .ok (a, []) := by
      have h := parseF_complete vd (8 * ts.length + 5) 5 ts a []
        (8 * ts.length + 8) (by omega) hd trivial (by omega)
      rwa [List.append_nil] at h
    refine ⟨a, ?_⟩
    simp only [parse]
    rw [if_neg hs0]
    simp only [htok, hcompl]

/-- C9 counterexample: the claim says negating a parenthesized
subexpression `!(...)` is always an error, but the source's
`transform_unary_op` accepts any operand that reduces to a variable node —
parentheses are transparent — so `!(x1)` parses successfully to the negated
variable. -/
theorem claim_C9_counterexample :
    cexC9 = '!' :: '(' :: (['x', '1'] ++ [')']) ∧
    parse vdX1 cexC9 = .ok (.var true "x1") :=
  ⟨rfl, rfl⟩
